import Mathlib

/-!
Verification development for `gen.py`, the feature-doc and token aggregator.

The Python source is embedded shallowly:

* JSON documents are modelled by the inductive type `JVal`; Python dictionaries
  become insertion-ordered association lists (`List (String × JVal)` and
  friends), mirroring the insertion-order semantics of `dict`.
* Real-valued scores and weights are modelled by `ℚ` (exact decimal
  arithmetic standing in for the float literals of the script).
* Fallible Python code (code that can raise) is modelled with `Except PyErr`
  or `Option`; a raised exception that the source catches is turned back into
  the handler's result, one the source does not catch propagates as `.error`.
* Timestamps (`time.time()`) enter as explicit `now : Nat` parameters.
-/

/-- Python exception classes that the embedded fragments can raise. -/
inductive PyErr where
  | indexError
  | attributeError
  | typeError
  | keyError
  | valueError
  deriving DecidableEq, Repr

/-- A JSON value, the result of `json.loads` / the content of `r.json()`.
Objects keep their key order, as Python dictionaries do. -/
inductive JVal where
  | jnull
  | jbool (b : Bool)
  | jnum (q : ℚ)
  | jstr (s : String)
  | jarr (xs : List JVal)
  | jobj (kvs : List (String × JVal))

/-- Python truthiness of a JSON value (`bool(v)`): `None`, `False`, `0`,
empty strings and empty containers are falsy. -/
def pyTruthy : JVal → Bool
  | .jnull => false
  | .jbool b => b
  | .jnum q => decide (q ≠ 0)
  | .jstr s => decide (s ≠ "")
  | .jarr [] => false
  | .jarr (_ :: _) => true
  | .jobj [] => false
  | .jobj (_ :: _) => true

/-- First-match association-list lookup (a Python `dict` read keyed on
insertion order; keys are unique in any dictionary that Python built). -/
def alookup {β : Type} (k : String) : List (String × β) → Option β
  | [] => none
  | (k', v) :: rest => if k' = k then some v else alookup k rest

/-- `d.get(k, dflt)` on a JSON object. -/
def pyGetD (kvs : List (String × JVal)) (k : String) (dflt : JVal) : JVal :=
  (alookup k kvs).getD dflt

/-- `d.setdefault(k, dflt)` followed by an in-place mutation `f` of the entry:
an existing key keeps its position, a missing key is appended at the end. -/
def alistUpdate {β : Type} (k : String) (f : β → β) (dflt : β) :
    List (String × β) → List (String × β)
  | [] => [(k, f dflt)]
  | (k', v) :: rest =>
    if k' = k then (k', f v) :: rest else (k', v) :: alistUpdate k f dflt rest

/-- `d[k] = v`: overwrite in place if the key exists, else append. -/
def alistSet {β : Type} (k : String) (v : β) :
    List (String × β) → List (String × β)
  | [] => [(k, v)]
  | (k', v') :: rest =>
    if k' = k then (k', v) :: rest else (k', v') :: alistSet k v rest

/-- `out.update(m)`: fold the entries of `m` into `out`, overwriting in
place and appending fresh keys in order. -/
def alistUpdateAll {β : Type} (out m : List (String × β)) : List (String × β) :=
  m.foldl (fun acc kv => alistSet kv.1 kv.2 acc) out

/-- `list(dict.fromkeys(xs))`: deduplicate keeping first occurrences. -/
def dedupFirstAux (seen : List String) : List String → List String
  | [] => []
  | x :: rest =>
    if x ∈ seen then dedupFirstAux seen rest
    else x :: dedupFirstAux (x :: seen) rest

def dedupFirst (l : List String) : List String := dedupFirstAux [] l

-- ==========================
-- Token normalisation (`_norm_token`, `_valid_token`, `GENERIC_TOKENS`)
-- ==========================

/-- The whitespace class used by `str.strip` and the regexes (ASCII part). -/
def isPySpace (c : Char) : Bool :=
  c = ' ' ∨ c = '\t' ∨ c = '\n' ∨ c = '\r' ∨ c = '\x0b' ∨ c = '\x0c'

/-- `t.strip()` on a character list. -/
def pyStripChars (cs : List Char) : List Char :=
  ((cs.dropWhile isPySpace).reverse.dropWhile isPySpace).reverse

/-- The character class the normaliser keeps: lowercase letters, digits,
underscore, plus, hyphen, slash, period, space (everything else is removed
by the substitution in the source). -/
def allowedChar (c : Char) : Bool :=
  (('a' ≤ c ∧ c ≤ 'z') ∨ ('0' ≤ c ∧ c ≤ '9') ∨
   c = '_' ∨ c = '+' ∨ c = '-' ∨ c = '/' ∨ c = '.' ∨ c = ' ')

/-- `re.sub(r"\s+", " ", t)`: collapse every whitespace run to one space.
The flag records whether we are inside a whitespace run. -/
def collapseWsAux : Bool → List Char → List Char
  | _, [] => []
  | prevSpace, c :: rest =>
    if isPySpace c then
      if prevSpace then collapseWsAux true rest
      else ' ' :: collapseWsAux true rest
    else c :: collapseWsAux false rest

def collapseWs (cs : List Char) : List Char := collapseWsAux false cs

/-- `_norm_token`: strip, lowercase, drop disallowed characters, collapse
whitespace, truncate to 64 characters. -/
def norm_token (s : String) : String :=
  (((collapseWs (((pyStripChars s.toList).map Char.toLower).filter allowedChar)).take 64)).asString

/-- `GENERIC_TOKENS`, the stop-list of overly generic words. -/
def GENERIC_TOKENS : List String :=
  ["state", "runtime", "system", "value", "data", "item", "node", "layout",
   "render", "function", "struct", "trait"]

/-- `_valid_token`: reject empty or one-character tokens and stop-listed words. -/
def valid_token (tok : String) : Bool :=
  if tok = "" ∨ tok.length < 2 then false
  else if tok ∈ GENERIC_TOKENS then false
  else true

/-- No two adjacent whitespace characters (collapsed internal whitespace). -/
def noTwoSpaces : List Char → Bool
  | [] => true
  | [_] => true
  | a :: b :: rest => (!(isPySpace a && isPySpace b)) && noTwoSpaces (b :: rest)

/-- The shape every token-index key is claimed to have: between 2 and 64
characters, drawn from the restricted lowercase character set, with collapsed
internal whitespace, and not a stop-listed generic word. -/
def is_normalized_key (t : String) : Bool :=
  decide (2 ≤ t.length) && decide (t.length ≤ 64) &&
    t.toList.all allowedChar && noTwoSpaces t.toList &&
    decide (t ∉ GENERIC_TOKENS)

-- ==========================
-- JSON recovery from free text (`_extract_json_blob`)
-- ==========================

/-- An opening or closing code fence, three backticks. -/
def fenceChars : List Char := ['`', '`', '`']

/-- The opening brace character, written numerically. -/
def lbrace : Char := Char.ofNat 123

/-- The closing brace character, written numerically. -/
def rbrace : Char := Char.ofNat 125

/-- Does `cs`, after an optional run of whitespace, continue with a closing
fence?  This is where the lazy group of the fence pattern may stop. -/
def closesAt (cs : List Char) : Bool :=
  fenceChars.isPrefixOf (cs.dropWhile isPySpace)

/-- The lazy-group search: find the shortest prefix of `cs` after which a
whitespace run followed by three backticks begins; return that prefix. -/
def fenceContent : List Char → Option (List Char)
  | [] => none
  | c :: rest =>
    if closesAt (c :: rest) then some []
    else (fenceContent rest).map (fun g => c :: g)

/-- Case-insensitive test for a leading `json` language tag. -/
def jsonTagCI : List Char → Bool
  | a :: b :: c :: d :: _ =>
    a.toLower = 'j' ∧ b.toLower = 's' ∧ c.toLower = 'o' ∧ d.toLower = 'n'
  | _ => false

/-- The search for a fenced block: scan start positions left to right; at a
position opening with three backticks, optionally consume a `json` tag, then
look for a closing fence; the matched group is stripped.  If the closing
fence is missing the scan moves on, exactly as the regex engine does. -/
def scanFence : List Char → Option (List Char)
  | [] => none
  | c :: rest =>
    if fenceChars.isPrefixOf (c :: rest) then
      let afterFence := (c :: rest).drop 3
      let body := if jsonTagCI afterFence then afterFence.drop 4 else afterFence
      match fenceContent body with
      | some g => some (pyStripChars g)
      | none => scanFence rest
    else scanFence rest

/-- Index of the first occurrence of `c` (`s.find(c)`), if any. -/
def firstIdxOf (c : Char) : List Char → Option Nat
  | [] => none
  | x :: rest => if x = c then some 0 else (firstIdxOf c rest).map (· + 1)

/-- Index of the last occurrence of `c` (`s.rfind(c)`), if any. -/
def lastIdxOf (c : Char) (cs : List Char) : Option Nat :=
  (firstIdxOf c cs.reverse).map (fun i => cs.length - 1 - i)

/-- `_extract_json_blob`: try the fenced block, then the first-brace to
last-brace slice, then hand the text back unchanged. -/
def extract_json_blob (cs : List Char) : List Char :=
  if cs = [] then cs
  else
    match scanFence cs with
    | some g => g
    | none =>
      match firstIdxOf lbrace cs, lastIdxOf rbrace cs with
      | some first, some last =>
        if first < last then ((cs.drop first).take (last + 1 - first)) else cs
      | _, _ => cs

-- ==========================
-- Oracle gateway (`http_json_chat`, `lm_score_features`, `lm_tokens_for_features`)
-- ==========================

/-- The outcome of one HTTP trial (one endpoint within one attempt):
a transport exception, a non-success status, a success whose body fails
top-level JSON parsing, or a success carrying a parsed JSON body. -/
inductive HttpOutcome where
  | transportError
  | status (code : Nat)
  | okUnparsable
  | okJson (v : JVal)

/-- `http_json_chat`: sweep the trial sequence (attempts × endpoints, with
logging and backoff elided); the first trial that yields a parsed JSON body
is returned, every other outcome is recorded and skipped; exhaustion yields
`None`. -/
def http_json_chat : List HttpOutcome → Option JVal
  | [] => none
  | .okJson v :: _ => some v
  | _ :: rest => http_json_chat rest

/-- Python subscripting `v[0]`: lists and strings index, an empty one raises
`IndexError`, a dict raises `KeyError` (its keys are strings), anything else
raises `TypeError`. -/
def pySubscriptZero : JVal → Except PyErr JVal
  | .jarr [] => .error .indexError
  | .jarr (x :: _) => .ok x
  | .jstr s =>
    match s.toList with
    | [] => .error .indexError
    | c :: _ => .ok (.jstr ([c].asString))
  | .jobj _ => .error .keyError
  | _ => .error .typeError

/-- `v.get(k, dflt)`: only a dict has `.get`; anything else raises
`AttributeError`. -/
def pyGetAttrD (v : JVal) (k : String) (dflt : JVal) : Except PyErr JVal :=
  match v with
  | .jobj kvs => .ok (pyGetD kvs k dflt)
  | _ => .error .attributeError

/-- `data.get("choices", [⟨⟩])[0].get("message", ⟨⟩).get("content", "")`,
the content extraction both LLM calls run on the top-level response. -/
def chatContent (data : JVal) : Except PyErr JVal := do
  let choices ← pyGetAttrD data ("choices") (.jarr [.jobj []])
  let first ← pySubscriptZero choices
  let msg ← pyGetAttrD first ("message") (.jobj [])
  pyGetAttrD msg ("content") (.jstr "")

/-- The sentinel empty scoring result. -/
def score_sentinel : JVal :=
  .jobj [("scores", .jobj []), ("primary", .jstr ("unknown")), ("confidence", .jnum 0)]

/-- `lm_score_features`, from the exchange of the gateway onward.  The JSON
text parser (`json.loads`) is passed in as `parse`; the feature cards and the
file summary only shape the outgoing prompt and are elided.  A string content
goes through blob extraction and parsing, with a parse failure degrading to
the sentinel; a falsy non-string content is passed through blob extraction
unchanged and then fails `json.loads` inside the handler, degrading to the
sentinel; a truthy non-string content makes the regex search raise an
uncaught `TypeError`. -/
def lm_score_features (parse : String → Option JVal) (trials : List HttpOutcome) :
    Except PyErr JVal :=
  match http_json_chat trials with
  | none => .ok score_sentinel
  | some data =>
    match chatContent data with
    | .error e => .error e
    | .ok (.jstr s) =>
      match parse ((extract_json_blob s.toList).asString) with
      | some v => .ok v
      | none => .ok score_sentinel
    | .ok c => if pyTruthy c then .error .typeError else .ok score_sentinel

/-- A normalized token suggestion `⟨"token": …, "weight": …⟩`. -/
structure Suggestion where
  token : String
  weight : ℚ
  deriving DecidableEq

/-- Python `str(v)` for the scalar values; container renderings are
abbreviated (they are never produced by a JSON-shaped oracle answer the
claims exercise). -/
def pyStr : JVal → String
  | .jnull => "None"
  | .jbool true => "True"
  | .jbool false => "False"
  | .jnum q => if q.den = 1 then toString q.num else toString q
  | .jstr s => s
  | .jarr _ => "[…]"
  | .jobj _ => "…"

/-- `float(str)` for plain decimal strings (sign, digits, one point). -/
def parsePyFloat (s : String) : Option ℚ :=
  let cs := pyStripChars s.toList
  let sgn : ℚ × List Char :=
    match cs with
    | c :: rest => if c = '-' then (-1, rest) else if c = '+' then (1, rest) else (1, cs)
    | [] => (1, [])
  let intPart := sgn.2.takeWhile (fun c => c.isDigit)
  let rest := sgn.2.dropWhile (fun c => c.isDigit)
  let digitsVal : List Char → ℕ :=
    fun l => l.foldl (fun acc c => 10 * acc + (c.toNat - ('0').toNat)) 0
  match rest with
  | [] => if intPart = [] then none else some (sgn.1 * digitsVal intPart)
  | c :: frac =>
    if c = '.' ∧ frac.all (fun d => d.isDigit) ∧ (intPart ≠ [] ∨ frac ≠ []) then
      some (sgn.1 * ((digitsVal intPart : ℚ) + (digitsVal frac : ℚ) / (10 : ℚ) ^ frac.length))
    else none

/-- `float(v)`: numbers and booleans convert, strings are parsed, everything
else raises. -/
def pyFloat : JVal → Except PyErr ℚ
  | .jnum q => .ok q
  | .jbool b => .ok (if b then 1 else 0)
  | .jstr s =>
    match parsePyFloat s with
    | some q => .ok q
    | none => .error .valueError
  | .jnull => .error .typeError
  | .jarr _ => .error .typeError
  | .jobj _ => .error .typeError

/-- `for t in v`: a list yields its elements, a string its characters, a
dict its keys; other values are not iterable. -/
def pyIterVals : JVal → Except PyErr (List JVal)
  | .jarr xs => .ok xs
  | .jstr s => .ok (s.toList.map (fun c => .jstr ([c].asString)))
  | .jobj kvs => .ok (kvs.map (fun kv => .jstr kv.1))
  | _ => .error .typeError

/-- One step of the suggestion normalisation loop of `lm_tokens_for_features`:
bare strings get weight 0.6, dicts are read with defaults, anything else is
skipped. -/
def normSuggestion (acc : List Suggestion) (t : JVal) : Except PyErr (List Suggestion) :=
  match t with
  | .jstr s => .ok (acc ++ [⟨s, 0.6⟩])
  | .jobj kvs => do
    let w ← pyFloat (pyGetD kvs ("weight") (.jnum 0.6))
    .ok (acc ++ [⟨pyStr (pyGetD kvs ("token") (.jstr (""))), w⟩])
  | _ => .ok acc

/-- The post-parse shaping of the token answer:
`for slug, arr in raw.get("features", ⟨⟩).items(): …` with the per-element
normalisation; runs outside the try, so shape errors propagate. -/
def tokens_postprocess (raw : JVal) : Except PyErr (List (String × List Suggestion)) := do
  let featuresV ← pyGetAttrD raw ("features") (.jobj [])
  match featuresV with
  | .jobj fkvs =>
    fkvs.foldlM (fun out kv => do
      let elems ← pyIterVals kv.2
      let norm ← elems.foldlM normSuggestion []
      pure (alistSet kv.1 norm out)) []
  | _ => .error .attributeError

/-- `lm_tokens_for_features`, from the exchange of the gateway onward; the
empty token map is the degraded result. -/
def lm_tokens_for_features (parse : String → Option JVal) (candidate_slugs : List String)
    (trials : List HttpOutcome) : Except PyErr (List (String × List Suggestion)) :=
  if candidate_slugs = [] then .ok []
  else
    match http_json_chat trials with
    | none => .ok []
    | some data =>
      match chatContent data with
      | .error e => .error e
      | .ok (.jstr s) =>
        match parse ((extract_json_blob s.toList).asString) with
        | some raw => tokens_postprocess raw
        | none => .ok []
      | .ok c => if pyTruthy c then .error .typeError else .ok []

-- ==========================
-- Token index (`merge_token_index`, `top_tokens_for_feature`,
-- `save_tokens_db`, `load_tokens_db`)
-- ==========================

/-- Per-feature aggregate of one token. -/
structure FeatStats where
  count : Nat
  weight_sum : ℚ
  deriving DecidableEq

/-- Global aggregate of one token. -/
structure GlobalStats where
  count : Nat
  weight_sum : ℚ
  examples : List String
  last_seen : Nat
  deriving DecidableEq

/-- One token-index entry: the global aggregate plus the per-feature map. -/
structure TokenEntry where
  global : GlobalStats
  by_feature : List (String × FeatStats)
  deriving DecidableEq

/-- The in-memory tokens database.  The version and model fields hold
whatever JSON value the loaded document carried (`None` initially). -/
structure TokensDb where
  taxonomy_version : JVal
  model : JVal
  token_index : List (String × TokenEntry)

def defaultTokensDb : TokensDb := ⟨.jnull, .jnull, []⟩

def emptyTokenEntry : TokenEntry := ⟨⟨0, 0, [], 0⟩, []⟩

/-- `TAXONOMY_VERSION` of the fixed feature set. -/
def TAXONOMY_VERSION : Int := 2

def updateFeatStats (w : ℚ) (fe : FeatStats) : FeatStats :=
  ⟨fe.count + 1, fe.weight_sum + w⟩

/-- The per-suggestion mutation of one entry inside `merge_token_index`:
bump global count and weight sum, refresh `last_seen`, append the file path
to the bounded example list when new and below the cap, and bump the
per-feature aggregate. -/
def updateTokenEntry (w : ℚ) (file_path : String) (now : Nat) (slug : String)
    (e : TokenEntry) : TokenEntry :=
  ⟨⟨e.global.count + 1, e.global.weight_sum + w,
    (if e.global.examples.length < 6 ∧ file_path ∉ e.global.examples
     then e.global.examples ++ [file_path] else e.global.examples), now⟩,
   alistUpdate slug (updateFeatStats w) ⟨0, 0⟩ e.by_feature⟩

/-- One iteration of the suggestion loop of `merge_token_index`. -/
def mergeSuggestion (slug file_path : String) (now : Nat)
    (idx : List (String × TokenEntry)) (s : Suggestion) : List (String × TokenEntry) :=
  let tok := norm_token s.token
  if valid_token tok then
    alistUpdate tok (updateTokenEntry s.weight file_path now slug) emptyTokenEntry idx
  else idx

/-- `merge_token_index`. -/
def merge_token_index (db : TokensDb) (taxonomy_version : Int) (model_name : String)
    (slug file_path : String) (suggestions : List Suggestion) (now : Nat) : TokensDb :=
  ⟨.jnum (taxonomy_version : ℚ), .jstr model_name,
   suggestions.foldl (mergeSuggestion slug file_path now) db.token_index⟩

/-- Insertion into an insertion-sorted list: `x` goes in front of the first
element it should precede; on a tie `bef` is true, so an element inserted
later (which came earlier in the input of the fold) stays in front —
the stable sort of Python. -/
def insertBy {α : Type} (bef : α → α → Bool) (x : α) : List α → List α
  | [] => [x]
  | y :: ys => if bef x y then x :: y :: ys else y :: insertBy bef x ys

/-- Stable insertion sort, `sorted(l, …)`. -/
def sortBy {α : Type} (bef : α → α → Bool) (l : List α) : List α :=
  l.foldr (insertBy bef) []

/-- The comparison of `scored.sort(reverse=True)` on `(score, token)` pairs:
descending lexicographic tuple order. -/
def scoreTokBefore (a b : ℚ × String) : Bool :=
  decide (b.1 < a.1 ∨ (a.1 = b.1 ∧ b.2 ≤ a.2))

/-- The ranking score of `top_tokens_for_feature`:
`fe.count * (0.5 + 0.5 * (fe.weight_sum / max(1, fe.count)))`. -/
def feature_token_score (fe : FeatStats) : ℚ :=
  (fe.count : ℚ) * (0.5 + 0.5 * (fe.weight_sum / ((max 1 fe.count : Nat) : ℚ)))

/-- `top_tokens_for_feature`. -/
def top_tokens_for_feature (db : TokensDb) (slug : String) (k : Nat) : List String :=
  let scored := db.token_index.filterMap (fun te =>
    match alookup slug te.2.by_feature with
    | some fe => some (feature_token_score fe, te.1)
    | none => none)
  ((sortBy scoreTokBefore scored).take k).map Prod.snd

/-- The flat token → de-duplicated example paths map that `save_tokens_db`
assembles; tokens whose example list is empty are skipped. -/
def tokens_map_of (db : TokensDb) : List (String × JVal) :=
  db.token_index.foldl (fun m te =>
    if te.2.global.examples ≠ [] then
      alistSet te.1 (.jarr ((dedupFirst te.2.global.examples).map .jstr)) m
    else m) []

/-- `save_tokens_db`: the persisted document is the two meta keys updated
with the flat token map. -/
def save_tokens_db (db : TokensDb) : List (String × JVal) :=
  alistUpdateAll
    [("taxonomy_version", db.taxonomy_version), ("model", db.model)]
    (tokens_map_of db)

def jvalToRat : JVal → ℚ
  | .jnum q => q
  | _ => 0

def jvalToNat : JVal → Nat
  | .jnum q => if q.den = 1 then q.num.toNat else 0
  | _ => 0

def jvalToStrList : JVal → List String
  | .jarr xs => xs.filterMap (fun v => match v with | .jstr s => some s | _ => none)
  | _ => []

/-- Reading of one already-internal entry in the pass-through branch of
`load_tokens_db` (the source hands the raw document back unchanged; the
typed embedding reads its fields off). -/
def decodeFeatStats (v : JVal) : FeatStats :=
  match v with
  | .jobj kvs => ⟨jvalToNat (pyGetD kvs ("count") (.jnum 0)),
                  jvalToRat (pyGetD kvs ("weight_sum") (.jnum 0))⟩
  | _ => ⟨0, 0⟩

def decodeTokenEntry (v : JVal) : TokenEntry :=
  match v with
  | .jobj kvs =>
    let g := pyGetD kvs ("global") (.jobj [])
    let bf := pyGetD kvs ("by_feature") (.jobj [])
    ⟨(match g with
      | .jobj gk => ⟨jvalToNat (pyGetD gk ("count") (.jnum 0)),
                     jvalToRat (pyGetD gk ("weight_sum") (.jnum 0)),
                     jvalToStrList (pyGetD gk ("examples") (.jarr [])),
                     jvalToNat (pyGetD gk ("last_seen") (.jnum 0))⟩
      | _ => ⟨0, 0, [], 0⟩),
     (match bf with
      | .jobj bk => bk.map (fun kv => (kv.1, decodeFeatStats kv.2))
      | _ => [])⟩
  | _ => emptyTokenEntry

def decode_tokens_db (kvs : List (String × JVal)) : TokensDb :=
  ⟨pyGetD kvs ("taxonomy_version") .jnull, pyGetD kvs ("model") .jnull,
   (match pyGetD kvs ("token_index") .jnull with
    | .jobj ik => ik.map (fun kv => (kv.1, decodeTokenEntry kv.2))
    | _ => [])⟩

/-- Elements of a JSON array as strings; a non-string element is the
point where the upgrade loop would raise, aborting to the default database. -/
def asStringList : List JVal → Option (List String)
  | [] => some []
  | .jstr s :: rest => (asStringList rest).map (fun l => s :: l)
  | _ => none

/-- `for t in toks` over the possible shapes of a `tokens` value: a list
yields its elements (strings only), a string its characters, a dict its
keys; a truthy number or boolean is not iterable and aborts the upgrade. -/
def iterTokenStrings : JVal → Option (List String)
  | .jarr xs => asStringList xs
  | .jstr s => some (s.toList.map (fun c => [c].asString))
  | .jobj kvs => some (kvs.map Prod.fst)
  | _ => none

/-- One token insertion of the nested-legacy upgrade: weight 1.0 each,
no examples, no timestamp. -/
def nestedInsert (slug : String) (idx : List (String × TokenEntry)) (t : String) :
    List (String × TokenEntry) :=
  let tok := norm_token t
  if valid_token tok then
    alistUpdate tok (fun e =>
      ⟨⟨e.global.count + 1, e.global.weight_sum + 1, e.global.examples, e.global.last_seen⟩,
       alistUpdate slug (fun fe => ⟨fe.count + 1, fe.weight_sum + 1⟩) ⟨0, 0⟩ e.by_feature⟩)
      emptyTokenEntry idx
  else idx

/-- The slug loop of the nested-legacy (`features`) upgrade. -/
def convert_features_index :
    List (String × JVal) → List (String × TokenEntry) → Option (List (String × TokenEntry))
  | [], idx => some idx
  | (slug, meta) :: rest, idx =>
    match meta with
    | .jobj mkvs =>
      let toksV := pyGetD mkvs ("tokens") .jnull
      match iterTokenStrings (if pyTruthy toksV then toksV else .jarr []) with
      | some toks => convert_features_index rest (toks.foldl (nestedInsert slug) idx)
      | none => none
    | _ => none

/-- The nested-legacy upgrade of `load_tokens_db`. -/
def convert_features_db (kvs : List (String × JVal)) : Option TokensDb :=
  match pyGetD kvs ("features") .jnull with
  | .jobj fkvs =>
    (convert_features_index fkvs []).map (fun idx =>
      ⟨pyGetD kvs ("taxonomy_version") .jnull, pyGetD kvs ("model") .jnull, idx⟩)
  | _ => none

def isListVal : JVal → Bool
  | .jarr _ => true
  | _ => false

/-- The non-meta keys of the document whose values are lists — the
flat-shape detector of `load_tokens_db`. -/
def flat_token_keys (kvs : List (String × JVal)) : List String :=
  (kvs.filter (fun kv =>
    decide (kv.1 ∉ ["taxonomy_version", "model"]) && isListVal kv.2)).map Prod.fst

/-- One key of the flat-legacy upgrade: normalise and validate the token,
then assign (not accumulate) count, weight sum, the first six de-duplicated
paths, and the timestamp; the per-feature map of an existing entry is kept. -/
def flatAssign (kvs : List (String × JVal)) (now : Nat)
    (idx : List (String × TokenEntry)) (tok : String) :
    Option (List (String × TokenEntry)) :=
  let nrm := norm_token tok
  if valid_token nrm then
    let pathsV := pyGetD kvs tok .jnull
    match (if pyTruthy pathsV then pathsV else .jarr []) with
    | .jarr xs =>
      (asStringList xs).map (fun paths =>
        alistUpdate nrm (fun e =>
          ⟨⟨paths.length, (paths.length : ℚ), (dedupFirst paths).take 6, now⟩, e.by_feature⟩)
          emptyTokenEntry idx)
    | _ => none
  else some idx

def convert_flat_index (kvs : List (String × JVal)) (now : Nat) :
    List String → List (String × TokenEntry) → Option (List (String × TokenEntry))
  | [], idx => some idx
  | tok :: rest, idx =>
    match flatAssign kvs now idx tok with
    | some idx2 => convert_flat_index kvs now rest idx2
    | none => none

/-- The flat-legacy upgrade of `load_tokens_db`. -/
def convert_flat_db (kvs : List (String × JVal)) (now : Nat) : Option TokensDb :=
  (convert_flat_index kvs now (flat_token_keys kvs) []).map (fun idx =>
    ⟨pyGetD kvs ("taxonomy_version") .jnull, pyGetD kvs ("model") .jnull, idx⟩)

/-- `load_tokens_db`: a missing or unreadable file gives the default empty
database; an internal-shape document passes through; a truthy `features`
key selects the nested-legacy upgrade, list-valued non-meta keys select the
flat-legacy upgrade; an upgrade that raises falls back to the default. -/
def load_tokens_db (raw : Option JVal) (now : Nat) : TokensDb :=
  match raw with
  | none => defaultTokensDb
  | some (.jobj kvs) =>
    if pyTruthy (pyGetD kvs ("token_index") .jnull) then decode_tokens_db kvs
    else if pyTruthy (pyGetD kvs ("features") .jnull) then
      (convert_features_db kvs).getD defaultTokensDb
    else if flat_token_keys kvs ≠ [] then
      (convert_flat_db kvs now).getD defaultTokensDb
    else defaultTokensDb
  | some _ => defaultTokensDb

-- ==========================
-- Feature selection and classification cache (lines of `main`)
-- ==========================

/-- `SCORE_MIN`, the inclusion threshold. -/
def SCORE_MIN : ℚ := 0.55

/-- `TOP_K_FALLBACK`, the guaranteed minimum number of selected features. -/
def TOP_K_FALLBACK : Nat := 2

/-- The comparison of `sorted(scores.items(), key=…, reverse=True)`:
by score descending, stable. -/
def scoreBefore (a b : String × ℚ) : Bool := decide (b.2 ≤ a.2)

/-- `ranked`, the score map sorted by score descending. -/
def rank_features (scores : List (String × ℚ)) : List (String × ℚ) :=
  sortBy scoreBefore scores

/-- The candidate computation of `main`: every feature at or above the
threshold, widened to the top `TOP_K_FALLBACK` of the ranking when fewer
qualify than the fallback allows for. -/
def select_candidates (scores : List (String × ℚ)) : List String :=
  let ranked := rank_features scores
  let candidates := (ranked.filter (fun kv => decide (SCORE_MIN ≤ kv.2))).map Prod.fst
  if candidates.length < min TOP_K_FALLBACK ranked.length then
    (ranked.take TOP_K_FALLBACK).map Prod.fst
  else candidates

/-- The feature-map assignment of `main`: the candidate features, or the
primary label alone when no candidate was selected. -/
def assign_targets (scores : List (String × ℚ)) (primary : String) : List String :=
  let c := select_candidates scores
  if c ≠ [] then c else [primary]

/-- `resp.get("primary", "unknown")` on the scoring response. -/
def resp_primary (kvs : List (String × JVal)) : JVal :=
  pyGetD kvs ("primary") (.jstr ("unknown"))

/-- One record of the classification cache. -/
structure CacheRecord where
  sha1 : String
  primary : String
  scores : List (String × ℚ)

/-- The classification cache: the taxonomy version plus per-file records. -/
structure ClassifyCache where
  taxonomy_version : Int
  files : List (String × CacheRecord)

/-- The version gate run once after loading the cache: a stale taxonomy
version discards every per-file record. -/
def invalidate_on_taxonomy (c : ClassifyCache) : ClassifyCache :=
  if c.taxonomy_version ≠ TAXONOMY_VERSION then ⟨TAXONOMY_VERSION, []⟩ else c

/-- The per-file classification step of `main`: on a fingerprint hit the
stored primary and scores are reused; otherwise the oracle is consulted and
the record overwritten.  The second component records whether the oracle
was called. -/
def classify_file (oracle : Unit → String × List (String × ℚ)) (cache : ClassifyCache)
    (rel file_hash : String) :
    (String × List (String × ℚ)) × Bool × ClassifyCache :=
  let hit : Option CacheRecord :=
    match alookup rel cache.files with
    | some r => if r.sha1 = file_hash then some r else none
    | none => none
  match hit with
  | some r => ((r.primary, r.scores), false, cache)
  | none =>
    let pr := oracle ()
    ((pr.1, pr.2), true,
     ⟨cache.taxonomy_version, alistSet rel ⟨file_hash, pr.1, pr.2⟩ cache.files⟩)

-- ==========================
-- Generic lemmas about the insertion sort and the association lists
-- ==========================

theorem mem_insertBy {α : Type} (bef : α → α → Bool) (x : α) :
    ∀ (l : List α) (a : α), a ∈ insertBy bef x l ↔ a = x ∨ a ∈ l := by
  intro l
  induction l with
  | nil => intro a; simp [insertBy]
  | cons y ys ih =>
    intro a
    simp only [insertBy]
    cases h : bef x y with
    | true =>
      rw [if_pos rfl]
      simp only [List.mem_cons]
    | false =>
      rw [if_neg Bool.false_ne_true]
      simp only [List.mem_cons, ih]
      tauto

theorem insertBy_perm {α : Type} (bef : α → α → Bool) (x : α) :
    ∀ l : List α, (insertBy bef x l).Perm (x :: l) := by
  intro l
  induction l with
  | nil => simp [insertBy]
  | cons y ys ih =>
    simp only [insertBy]
    cases h : bef x y with
    | true => rw [if_pos rfl]
    | false =>
      rw [if_neg Bool.false_ne_true]
      exact (ih.cons y).trans (List.Perm.swap x y ys)

theorem sortBy_perm {α : Type} (bef : α → α → Bool) :
    ∀ l : List α, (sortBy bef l).Perm l := by
  intro l
  induction l with
  | nil => simp [sortBy]
  | cons y ys ih => exact (insertBy_perm bef y (sortBy bef ys)).trans (ih.cons y)

theorem pairwise_insertBy {α : Type} {R : α → α → Prop} {bef : α → α → Bool}
    (hconn : ∀ a b, bef a b = true → R a b)
    (htot : ∀ a b, bef a b = false → R b a)
    (htrans : ∀ a b c, R a b → R b c → R a c) (x : α) :
    ∀ l : List α, l.Pairwise R → (insertBy bef x l).Pairwise R := by
  intro l
  induction l with
  | nil => intro _; simp [insertBy]
  | cons y ys ih =>
    intro hl
    rcases List.pairwise_cons.mp hl with ⟨hy, hys⟩
    simp only [insertBy]
    cases h : bef x y with
    | true =>
      rw [if_pos rfl]
      refine List.pairwise_cons.mpr ⟨?_, hl⟩
      intro z hz
      rcases List.mem_cons.mp hz with hz | hz
      · exact hz ▸ hconn x y h
      · exact htrans x y z (hconn x y h) (hy z hz)
    | false =>
      rw [if_neg Bool.false_ne_true]
      refine List.pairwise_cons.mpr ⟨?_, ih hys⟩
      intro z hz
      rcases (mem_insertBy bef x ys z).mp hz with hz | hz
      · exact hz ▸ htot x y h
      · exact hy z hz

theorem sortBy_pairwise {α : Type} {R : α → α → Prop} {bef : α → α → Bool}
    (hconn : ∀ a b, bef a b = true → R a b)
    (htot : ∀ a b, bef a b = false → R b a)
    (htrans : ∀ a b c, R a b → R b c → R a c) :
    ∀ l : List α, (sortBy bef l).Pairwise R := by
  intro l
  induction l with
  | nil => simp [sortBy]
  | cons y ys ih => exact pairwise_insertBy hconn htot htrans y (sortBy bef ys) ih

theorem alookup_mem {β : Type} {k : String} {v : β} :
    ∀ {l : List (String × β)}, alookup k l = some v → (k, v) ∈ l := by
  intro l
  induction l with
  | nil => intro h; simp [alookup] at h
  | cons p rest ih =>
    obtain ⟨a, b⟩ := p
    intro h
    by_cases hk : a = k
    · subst hk
      simp only [alookup, if_pos rfl] at h
      cases h
      exact List.mem_cons_self _ _
    · simp only [alookup, if_neg hk] at h
      exact List.mem_cons_of_mem _ (ih h)

theorem alookup_eq_of_mem {β : Type} {k : String} {v : β} :
    ∀ {l : List (String × β)}, (l.map Prod.fst).Nodup → (k, v) ∈ l →
      alookup k l = some v := by
  intro l
  induction l with
  | nil => intro _ h; simp at h
  | cons p rest ih =>
    obtain ⟨a, b⟩ := p
    intro hnd hm
    have hnd' : (∀ x : β, (a, x) ∉ rest) ∧ (rest.map Prod.fst).Nodup := by
      simpa using hnd
    rcases List.mem_cons.mp hm with hm | hm
    · cases hm
      simp [alookup]
    · have hk : a ≠ k := by
        intro he
        subst he
        exact hnd'.1 v hm
      simp only [alookup, if_neg hk]
      exact ih hnd'.2 hm

theorem mem_keys_alistUpdate {β : Type} {k : String} {f : β → β} {dflt : β} {k' : String} :
    ∀ {l : List (String × β)},
      k' ∈ (alistUpdate k f dflt l).map Prod.fst → k' = k ∨ k' ∈ l.map Prod.fst := by
  intro l
  induction l with
  | nil => intro h; simp [alistUpdate] at h; simp [h]
  | cons p rest ih =>
    intro h
    by_cases hk : p.1 = k
    · simp only [alistUpdate, if_pos hk] at h
      rcases by simpa using h with h | h
      · exact Or.inr (by simp [h])
      · exact Or.inr (by simp [h])
    · simp only [alistUpdate, if_neg hk] at h
      rcases by simpa using h with h | h
      · exact Or.inr (by simp [h])
      · rcases ih (by simpa using h) with h | h
        · exact Or.inl h
        · exact Or.inr (by simp [h])

theorem alookup_alistUpdate_self {β : Type} (k : String) (f : β → β) (dflt : β) :
    ∀ l : List (String × β),
      alookup k (alistUpdate k f dflt l) = some (f ((alookup k l).getD dflt)) := by
  intro l
  induction l with
  | nil => simp [alistUpdate, alookup]
  | cons p rest ih =>
    by_cases hk : p.1 = k
    · simp [alistUpdate, alookup, hk]
    · simp [alistUpdate, alookup, hk, ih]

theorem alookup_alistUpdate_ne {β : Type} {k k' : String} (hne : k ≠ k')
    (f : β → β) (dflt : β) :
    ∀ l : List (String × β),
      alookup k' (alistUpdate k f dflt l) = alookup k' l := by
  intro l
  induction l with
  | nil => simp [alistUpdate, alookup, hne]
  | cons p rest ih =>
    by_cases hk : p.1 = k
    · have : k ≠ k' := hne
      simp [alistUpdate, alookup, hk, this]
    · simp only [alistUpdate, if_neg hk, alookup]
      by_cases hk' : p.1 = k'
      · simp [hk']
      · simp [hk', ih]

theorem mem_keys_alistSet {β : Type} (k : String) (v : β) (k' : String) :
    ∀ l : List (String × β),
      (k' ∈ (alistSet k v l).map Prod.fst ↔ k' = k ∨ k' ∈ l.map Prod.fst) := by
  intro l
  induction l with
  | nil => simp [alistSet]
  | cons p rest ih =>
    obtain ⟨a, b⟩ := p
    by_cases hk : a = k
    · subst hk
      simp [alistSet, List.mem_cons]
      try tauto
    · simp [alistSet, hk, List.mem_cons, ih]
      try tauto

-- ==========================
-- Lemmas for the selection policy
-- ==========================

theorem rank_features_perm (scores : List (String × ℚ)) :
    (rank_features scores).Perm scores :=
  sortBy_perm scoreBefore scores

theorem rank_features_sorted (scores : List (String × ℚ)) :
    (rank_features scores).Pairwise (fun a b => b.2 ≤ a.2) := by
  refine sortBy_pairwise ?_ ?_ ?_ scores
  · intro a b h
    exact of_decide_eq_true h
  · intro a b h
    exact le_of_not_le (of_decide_eq_false h)
  · intro a b c h₁ h₂
    exact le_trans h₂ h₁

theorem filter_eq_takeWhile_sorted {p : String × ℚ → Bool}
    (hmono : ∀ a b : String × ℚ, b.2 ≤ a.2 → p a = false → p b = false) :
    ∀ l : List (String × ℚ), l.Pairwise (fun a b => b.2 ≤ a.2) →
      l.filter p = l.takeWhile p := by
  intro l
  induction l with
  | nil => intro _; rfl
  | cons a as ih =>
    intro hl
    rcases List.pairwise_cons.mp hl with ⟨ha, has⟩
    cases hpa : p a with
    | true => simp [List.filter_cons, List.takeWhile_cons, hpa, ih has]
    | false =>
      simp only [List.filter_cons, List.takeWhile_cons, hpa]
      simp only [Bool.false_eq_true, if_false]
      exact List.filter_eq_nil_iff.mpr fun b hb => by
        simp [hmono a b (ha b hb) hpa]

theorem takeWhile_eq_take_own_length {α : Type} (p : α → Bool) :
    ∀ l : List α, l.takeWhile p = l.take (l.takeWhile p).length := by
  intro l
  induction l with
  | nil => rfl
  | cons a as ih =>
    cases hpa : p a with
    | true => simp [List.takeWhile_cons, hpa, List.take_succ_cons, ← ih]
    | false => simp [List.takeWhile_cons, hpa]

theorem take_min_own_length {α : Type} (k : Nat) (l : List α) :
    l.take (min k l.length) = l.take k := by
  rcases le_total k l.length with h | h
  · rw [min_eq_left h]
  · rw [min_eq_right h, List.take_length, List.take_of_length_le h]

/-- The single equation describing the selection: the chosen features are
the names of the first `max(#qualifying, min(2, #scored))` entries of the
descending ranking. -/
theorem select_candidates_eq (scores : List (String × ℚ)) :
    select_candidates scores
      = ((rank_features scores).take
          (max (((rank_features scores).filter (fun kv => decide (SCORE_MIN ≤ kv.2))).length)
            (min TOP_K_FALLBACK (rank_features scores).length))).map Prod.fst := by
  have hmono : ∀ a b : String × ℚ, b.2 ≤ a.2 →
      (fun kv : String × ℚ => decide (SCORE_MIN ≤ kv.2)) a = false →
      (fun kv : String × ℚ => decide (SCORE_MIN ≤ kv.2)) b = false := by
    intro a b hle ha
    have : ¬(SCORE_MIN ≤ a.2) := of_decide_eq_false ha
    exact decide_eq_false fun hb => this (le_trans hb hle)
  have hft := filter_eq_takeWhile_sorted hmono (rank_features scores)
    (rank_features_sorted scores)
  simp only [select_candidates]
  by_cases hc :
      (((rank_features scores).filter (fun kv => decide (SCORE_MIN ≤ kv.2))).map
        Prod.fst).length < min TOP_K_FALLBACK (rank_features scores).length
  · rw [if_pos hc]
    rw [List.length_map] at hc
    rw [max_eq_right (le_of_lt hc), ← take_min_own_length TOP_K_FALLBACK]
  · rw [if_neg hc]
    rw [List.length_map] at hc
    rw [max_eq_left (le_of_not_lt hc)]
    rw [hft, ← takeWhile_eq_take_own_length]

/-- The qualifying features are an initial segment of the selection. -/
theorem select_candidates_extends (scores : List (String × ℚ)) :
    ∃ ext, select_candidates scores
      = (((rank_features scores).filter (fun kv => decide (SCORE_MIN ≤ kv.2))).map
          Prod.fst) ++ ext := by
  classical
  have hmono : ∀ a b : String × ℚ, b.2 ≤ a.2 →
      (fun kv : String × ℚ => decide (SCORE_MIN ≤ kv.2)) a = false →
      (fun kv : String × ℚ => decide (SCORE_MIN ≤ kv.2)) b = false := by
    intro a b hle ha
    have : ¬(SCORE_MIN ≤ a.2) := of_decide_eq_false ha
    exact decide_eq_false fun hb => this (le_trans hb hle)
  have hft := filter_eq_takeWhile_sorted hmono (rank_features scores)
    (rank_features_sorted scores)
  set R := rank_features scores with hR
  set q := R.filter (fun kv => decide (SCORE_MIN ≤ kv.2)) with hq
  set M := max q.length (min TOP_K_FALLBACK R.length) with hM
  have hqM : q.length ≤ M := le_max_left _ _
  refine ⟨((R.take M).drop q.length).map Prod.fst, ?_⟩
  rw [select_candidates_eq scores, ← hR, ← hq, ← hM, ← List.map_append]
  congr 1
  have h1 : q = (R.take M).take q.length := by
    rw [List.take_take, min_eq_left hqM, hft, ← takeWhile_eq_take_own_length]
  have h2 := List.take_append_drop q.length (R.take M)
  rw [← h1] at h2
  exact h2.symm

theorem select_candidates_ne_nil (scores : List (String × ℚ)) (h : scores ≠ []) :
    select_candidates scores ≠ [] := by
  have hlen : 1 ≤ scores.length := List.length_pos.mpr h
  have hn : (rank_features scores).length = scores.length :=
    (rank_features_perm scores).length_eq
  intro hnil
  have h0 : (select_candidates scores).length = 0 := by rw [hnil]; rfl
  rw [select_candidates_eq, List.length_map, List.length_take] at h0
  have h1 : 1 ≤ min TOP_K_FALLBACK (rank_features scores).length := by
    refine le_min (by norm_num [TOP_K_FALLBACK]) ?_
    rw [hn]
    exact hlen
  have h2 : 1 ≤
      max (((rank_features scores).filter (fun kv => decide (SCORE_MIN ≤ kv.2))).length)
        (min TOP_K_FALLBACK (rank_features scores).length) :=
    le_trans h1 (le_max_right _ _)
  rw [hn] at h0 h1
  omega

-- ==========================
-- Claim theorems: gateway resilience, selection, fallback, cache
-- ==========================

/-- C1: for the listed oracle failure outcomes — transport error, non-success
status, unparsable top-level body, exhaustion — both calls degrade to their
sentinels, but the claim that they never raise is broken by the source: a
successful response whose parsed body is the JSON object with an empty
`choices` array makes the unguarded `[0]` subscript raise an uncaught
`IndexError` in both `lm_score_features` and `lm_tokens_for_features`. -/
theorem gateway_empty_choices_raises :
    lm_score_features (fun _ => none) [.okJson (.jobj [("choices", .jarr [])])]
      = .error .indexError
  ∧ lm_tokens_for_features (fun _ => none) ["layout"]
      [.okJson (.jobj [("choices", .jarr [])])] = .error .indexError
  ∧ lm_score_features (fun _ => none) [.transportError, .status 500, .okUnparsable]
      = .ok score_sentinel
  ∧ lm_tokens_for_features (fun _ => none) ["layout"]
      [.transportError, .status 500, .okUnparsable] = .ok []
  ∧ (∀ trials : List HttpOutcome, http_json_chat trials = none →
      lm_score_features (fun _ => none) trials = .ok score_sentinel
      ∧ lm_tokens_for_features (fun _ => none) ["layout"] trials = .ok []) := by
  refine ⟨rfl, rfl, rfl, rfl, ?_⟩
  intro trials h
  constructor
  · simp [lm_score_features, h]
  · simp [lm_tokens_for_features, h]

/-- C2: the selection is exactly the features scoring at least 0.55 in
descending score order, widened by the next-highest-ranked features to the
minimum of two when fewer qualify (or to all features when fewer than two
were scored); on the scores a ↦ 0.9, b ↦ 0.6, c ↦ 0.2 it picks a and b. -/
theorem selection_policy_claim (scores : List (String × ℚ)) :
    (rank_features scores).Perm scores
  ∧ (rank_features scores).Pairwise (fun a b => b.2 ≤ a.2)
  ∧ select_candidates scores
      = ((rank_features scores).take
          (max (((rank_features scores).filter (fun kv => decide (SCORE_MIN ≤ kv.2))).length)
            (min TOP_K_FALLBACK (rank_features scores).length))).map Prod.fst
  ∧ (∃ ext, select_candidates scores
      = (((rank_features scores).filter (fun kv => decide (SCORE_MIN ≤ kv.2))).map
          Prod.fst) ++ ext)
  ∧ select_candidates [("a", 0.9), ("b", 0.6), ("c", 0.2)] = ["a", "b"] := by
  refine ⟨rank_features_perm scores, rank_features_sorted scores,
    select_candidates_eq scores, select_candidates_extends scores, ?_⟩
  norm_num [select_candidates, rank_features, sortBy, insertBy, scoreBefore, SCORE_MIN,
    TOP_K_FALLBACK, List.foldr, List.filter]

/-- C9: an empty score map sends the file to its primary label alone,
and this is the only such path: a non-empty score map always yields a
non-empty candidate selection, which is used as-is; a missing `primary`
key falls back to the label `unknown`. -/
theorem empty_scores_fallback_claim (scores : List (String × ℚ)) (primary : String) :
    (scores = [] → assign_targets scores primary = [primary])
  ∧ (scores ≠ [] → assign_targets scores primary = select_candidates scores
      ∧ select_candidates scores ≠ [])
  ∧ (∀ kvs : List (String × JVal), alookup ("primary") kvs = none →
      resp_primary kvs = .jstr ("unknown")) := by
  refine ⟨?_, ?_, ?_⟩
  · intro h
    subst h
    rfl
  · intro h
    have hne := select_candidates_ne_nil scores h
    exact ⟨by simp [assign_targets, hne], hne⟩
  · intro kvs h
    simp [resp_primary, pyGetD, h]

theorem empty_scores_fallback_witness :
    assign_targets [] ("widgets") = ["widgets"]
  ∧ assign_targets [(("layout" : String), (0.8 : ℚ))] ("widgets")
      = select_candidates [("layout", 0.8)] := by
  refine ⟨(empty_scores_fallback_claim [] ("widgets")).1 rfl, ?_⟩
  exact ((empty_scores_fallback_claim [("layout", 0.8)] ("widgets")).2.1 (by simp)).1

/-- C4: with the active taxonomy version, a stored record whose fingerprint
matches the current digest is reused verbatim — same primary, same scores —
with no oracle call (the outcome is the same for every oracle and the
call flag stays false); a stale taxonomy version empties the whole
per-file record map, not just one entry. -/
theorem cache_hit_claim (oracle : Unit → String × List (String × ℚ))
    (cache : ClassifyCache) (rel file_hash : String) (r : CacheRecord) :
    (cache.taxonomy_version = TAXONOMY_VERSION →
      alookup rel cache.files = some r → r.sha1 = file_hash →
      classify_file oracle (invalidate_on_taxonomy cache) rel file_hash
        = ((r.primary, r.scores), false, cache))
  ∧ (cache.taxonomy_version ≠ TAXONOMY_VERSION →
      (invalidate_on_taxonomy cache).files = []) := by
  constructor
  · intro htv hrec hsha
    have hid : invalidate_on_taxonomy cache = cache := by
      simp [invalidate_on_taxonomy, htv]
    rw [hid]
    simp [classify_file, hrec, hsha]
  · intro htv
    simp [invalidate_on_taxonomy, htv]

theorem cache_hit_witness :
    classify_file (fun _ => ("unknown", []))
      (invalidate_on_taxonomy ⟨2, [("a.rs", ⟨"h1", "layout", [("layout", 1)]⟩)]⟩)
      ("a.rs") ("h1")
      = (("layout", [("layout", 1)]), false,
         (⟨2, [("a.rs", ⟨"h1", "layout", [("layout", 1)]⟩)]⟩ : ClassifyCache))
  ∧ (invalidate_on_taxonomy ⟨1, [("a.rs", ⟨"h1", "layout", [("layout", 1)]⟩)]⟩).files
      = [] := by
  constructor
  · exact (cache_hit_claim (fun _ => ("unknown", []))
      ⟨2, [("a.rs", ⟨"h1", "layout", [("layout", 1)]⟩)]⟩ ("a.rs") ("h1")
      ⟨"h1", "layout", [("layout", 1)]⟩).1 rfl (by simp [alookup]) rfl
  · exact (cache_hit_claim (fun _ => ("unknown", []))
      ⟨1, [("a.rs", ⟨"h1", "layout", [("layout", 1)]⟩)]⟩ ("a.rs") ("h1")
      ⟨"h1", "layout", [("layout", 1)]⟩).2 (by decide)

-- ==========================
-- Merge additivity (timestamps aside, a merge is a pure fold)
-- ==========================

/-- A token entry without its `last_seen` timestamp: global count, global
weight sum, examples, and the per-feature map. -/
def stripEntry (e : TokenEntry) : (Nat × ℚ × List String) × List (String × FeatStats) :=
  ((e.global.count, e.global.weight_sum, e.global.examples), e.by_feature)

def updateEntryStripped (w : ℚ) (path slug : String)
    (p : (Nat × ℚ × List String) × List (String × FeatStats)) :
    (Nat × ℚ × List String) × List (String × FeatStats) :=
  ((p.1.1 + 1, p.1.2.1 + w,
    if p.1.2.2.length < 6 ∧ path ∉ p.1.2.2 then p.1.2.2 ++ [path] else p.1.2.2),
   alistUpdate slug (updateFeatStats w) ⟨0, 0⟩ p.2)

def stripIndex (idx : List (String × TokenEntry)) :
    List (String × ((Nat × ℚ × List String) × List (String × FeatStats))) :=
  idx.map (fun te => (te.1, stripEntry te.2))

def mergeSuggestionStripped (slug path : String)
    (idx : List (String × ((Nat × ℚ × List String) × List (String × FeatStats))))
    (s : Suggestion) :
    List (String × ((Nat × ℚ × List String) × List (String × FeatStats))) :=
  let tok := norm_token s.token
  if valid_token tok then
    alistUpdate tok (updateEntryStripped s.weight path slug) (stripEntry emptyTokenEntry) idx
  else idx

/-- The whole database without timestamps. -/
def stripDb (db : TokensDb) :
    JVal × JVal × List (String × ((Nat × ℚ × List String) × List (String × FeatStats))) :=
  (db.taxonomy_version, db.model, stripIndex db.token_index)

theorem stripEntry_updateTokenEntry (w : ℚ) (path : String) (now : Nat) (slug : String)
    (e : TokenEntry) :
    stripEntry (updateTokenEntry w path now slug e) =
      updateEntryStripped w path slug (stripEntry e) := rfl

theorem stripIndex_alistUpdate (k : String) (w : ℚ) (path : String) (now : Nat)
    (slug : String) :
    ∀ idx : List (String × TokenEntry),
      stripIndex (alistUpdate k (updateTokenEntry w path now slug) emptyTokenEntry idx)
        = alistUpdate k (updateEntryStripped w path slug) (stripEntry emptyTokenEntry)
            (stripIndex idx) := by
  intro idx
  induction idx with
  | nil => simp [stripIndex, alistUpdate, stripEntry_updateTokenEntry]
  | cons p rest ih =>
    obtain ⟨a, e⟩ := p
    by_cases hk : a = k
    · subst hk
      simp [stripIndex, alistUpdate, stripEntry_updateTokenEntry]
    · simp only [stripIndex, List.map_cons] at ih ⊢
      simp [alistUpdate, hk, ih]

theorem stripIndex_mergeSuggestion (slug path : String) (now : Nat)
    (idx : List (String × TokenEntry)) (s : Suggestion) :
    stripIndex (mergeSuggestion slug path now idx s)
      = mergeSuggestionStripped slug path (stripIndex idx) s := by
  simp only [mergeSuggestion, mergeSuggestionStripped]
  by_cases hv : valid_token (norm_token s.token) = true
  · rw [if_pos hv, if_pos hv]
    exact stripIndex_alistUpdate _ _ _ _ _ idx
  · rw [if_neg hv, if_neg hv]

theorem stripIndex_foldl (slug path : String) (now : Nat) :
    ∀ (l : List Suggestion) (idx : List (String × TokenEntry)),
      stripIndex (l.foldl (mergeSuggestion slug path now) idx)
        = l.foldl (mergeSuggestionStripped slug path) (stripIndex idx) := by
  intro l
  induction l with
  | nil => intro idx; rfl
  | cons s rest ih =>
    intro idx
    simp only [List.foldl_cons]
    rw [ih, stripIndex_mergeSuggestion]

/-- C3: token merging is additive — merging one suggestion list and then a
second produces, for every token, the same global and per-feature counts,
weight sums and example lists (everything but the wall-clock timestamps) as
merging the concatenation in one call; in particular two merges of the
token `foo` with weights 0.8 and 0.4 into an empty index give count 2 and
weight sum 1.2 both globally and for the feature. -/
theorem token_merge_additive_claim (db : TokensDb) (tv : Int) (mdl slug path : String)
    (l₁ l₂ : List Suggestion) (n₁ n₂ n₃ : Nat) :
    stripDb (merge_token_index (merge_token_index db tv mdl slug path l₁ n₁)
        tv mdl slug path l₂ n₂)
      = stripDb (merge_token_index db tv mdl slug path (l₁ ++ l₂) n₃)
  ∧ (merge_token_index (merge_token_index defaultTokensDb 2 ("m") ("layout") ("f.rs")
        [⟨"foo", 0.8⟩] 5) 2 ("m") ("layout") ("f.rs") [⟨"foo", 0.4⟩] 6).token_index
      = [("foo", ⟨⟨2, 1.2, ["f.rs"], 6⟩, [("layout", ⟨2, 1.2⟩)]⟩)] := by
  constructor
  · simp only [stripDb, merge_token_index]
    rw [stripIndex_foldl, stripIndex_foldl, stripIndex_foldl, List.foldl_append]
  · have h1 : norm_token ("foo") = "foo" := by decide
    have h2 : valid_token ("foo") = true := by decide
    norm_num [merge_token_index, mergeSuggestion, h1, h2, updateTokenEntry,
      updateFeatStats, alistUpdate, emptyTokenEntry, List.foldl]

-- ==========================
-- Top-token ranking
-- ==========================

/-- The ranking score exactly as the claim words it: count times
(0.5 + 0.5 · mean weight) with the mean weight being the per-feature weight
sum divided by the per-feature count, read off the index for a token. -/
def claim_token_score (db : TokensDb) (slug tok : String) : ℚ :=
  match alookup tok db.token_index with
  | some e =>
    match alookup slug e.by_feature with
    | some fe => (fe.count : ℚ) * (0.5 + 0.5 * (fe.weight_sum / (fe.count : ℚ)))
    | none => 0
  | none => 0

theorem feature_token_score_eq_claim {fe : FeatStats} (h : 1 ≤ fe.count) :
    feature_token_score fe
      = (fe.count : ℚ) * (0.5 + 0.5 * (fe.weight_sum / (fe.count : ℚ))) := by
  simp [feature_token_score, Nat.max_eq_right h]

theorem scoreTokBefore_pairwise (scored : List (ℚ × String)) :
    (sortBy scoreTokBefore scored).Pairwise
      (fun a b : ℚ × String => b.1 < a.1 ∨ (a.1 = b.1 ∧ b.2 ≤ a.2)) := by
  refine sortBy_pairwise ?_ ?_ ?_ scored
  · intro a b h
    exact of_decide_eq_true h
  · intro a b h
    have h' := of_decide_eq_false h
    push_neg at h'
    rcases lt_or_eq_of_le h'.1 with hlt | heq
    · exact Or.inl hlt
    · exact Or.inr ⟨heq.symm, le_of_lt (h'.2 heq)⟩
  · intro a b c h₁ h₂
    rcases h₁ with h₁ | ⟨h₁e, h₁s⟩
    · rcases h₂ with h₂ | ⟨h₂e, h₂s⟩
      · exact Or.inl (lt_trans h₂ h₁)
      · exact Or.inl (h₂e ▸ h₁)
    · rcases h₂ with h₂ | ⟨h₂e, h₂s⟩
      · exact Or.inl (h₁e ▸ h₂)
      · exact Or.inr ⟨h₁e.trans h₂e, le_trans h₂s h₁s⟩

/-- C6: `top_tokens_for_feature` returns at most `k` tokens, each of which
has a per-feature entry for the requested slug, in non-increasing order of
`count * (0.5 + 0.5 * mean_weight)` with `mean_weight = weight_sum / count`
(on any index whose per-feature counts are at least one, as every index
built by the merge is). -/
theorem top_tokens_claim (db : TokensDb) (slug : String) (k : Nat)
    (hnd : (db.token_index.map Prod.fst).Nodup)
    (hpos : ∀ p ∈ db.token_index, ∀ q ∈ p.2.by_feature, 1 ≤ q.2.count) :
    (top_tokens_for_feature db slug k).length ≤ k
  ∧ (∀ t ∈ top_tokens_for_feature db slug k,
      ∃ e, alookup t db.token_index = some e ∧ ∃ fe, alookup slug e.by_feature = some fe)
  ∧ (top_tokens_for_feature db slug k).Pairwise
      (fun t₁ t₂ => claim_token_score db slug t₂ ≤ claim_token_score db slug t₁) := by
  classical
  set f : String × TokenEntry → Option (ℚ × String) := fun te =>
    match alookup slug te.2.by_feature with
    | some fe => some (feature_token_score fe, te.1)
    | none => none with hf
  set scored := db.token_index.filterMap f with hscored
  have hchar : ∀ p ∈ scored, ∃ e, (p.2, e) ∈ db.token_index ∧
      ∃ fe, alookup slug e.by_feature = some fe ∧ p.1 = feature_token_score fe := by
    intro p hp
    rcases List.mem_filterMap.mp hp with ⟨te, hte, hfe⟩
    rcases hlk : alookup slug te.2.by_feature with _ | fe
    · rw [hf] at hfe
      simp only [hlk] at hfe
      exact Option.noConfusion hfe
    · rw [hf] at hfe
      simp only [hlk] at hfe
      cases hfe
      exact ⟨te.2, by simpa using hte, fe, hlk, rfl⟩
  have hbridge : ∀ p ∈ scored, claim_token_score db slug p.2 = p.1 := by
    intro p hp
    rcases hchar p hp with ⟨e, hmem, fe, hlk, hsc⟩
    have h1 : alookup p.2 db.token_index = some e := alookup_eq_of_mem hnd hmem
    have hcount : 1 ≤ fe.count := hpos (p.2, e) hmem (slug, fe) (alookup_mem hlk)
    simp only [claim_token_score, h1, hlk, hsc, feature_token_score_eq_claim hcount]
  have hsubset : ∀ p ∈ (sortBy scoreTokBefore scored).take k, p ∈ scored := by
    intro p hp
    exact (sortBy_perm scoreTokBefore scored).mem_iff.mp
      ((List.take_sublist k _).subset hp)
  refine ⟨?_, ?_, ?_⟩
  · simp only [top_tokens_for_feature, List.length_map, List.length_take, ← hf, ← hscored]
    exact min_le_left _ _
  · intro t ht
    simp only [top_tokens_for_feature, ← hf, ← hscored, List.mem_map] at ht
    rcases ht with ⟨p, hp, hpt⟩
    rcases hchar p (hsubset p hp) with ⟨e, hmem, fe, hlk, _⟩
    exact ⟨e, hpt ▸ alookup_eq_of_mem hnd hmem, fe, hlk⟩
  · simp only [top_tokens_for_feature, ← hf, ← hscored]
    rw [List.pairwise_map]
    have hpw := ((scoreTokBefore_pairwise scored).sublist (List.take_sublist k _))
    refine List.Pairwise.imp_of_mem ?_ hpw
    intro a b ha hb hr
    rw [hbridge a (hsubset a ha), hbridge b (hsubset b hb)]
    rcases hr with hr | ⟨hre, _⟩
    · exact le_of_lt hr
    · exact le_of_eq hre.symm

/-- A small populated index used to instantiate the ranking theorem. -/
def sampleTokensDb : TokensDb :=
  ⟨.jnum 2, .jstr ("m"),
   [("alpha", ⟨⟨2, 1, ["a.rs"], 0⟩, [("layout", ⟨2, 1⟩)]⟩),
    ("beta", ⟨⟨1, 2, [], 0⟩, [("widgets", ⟨1, 2⟩)]⟩),
    ("gamma", ⟨⟨3, 2, ["b.rs"], 0⟩, [("layout", ⟨3, 2⟩)]⟩)]⟩

theorem top_tokens_claim_witness :
    (top_tokens_for_feature sampleTokensDb ("layout") 5).length ≤ 5
  ∧ (∀ t ∈ top_tokens_for_feature sampleTokensDb ("layout") 5,
      ∃ e, alookup t sampleTokensDb.token_index = some e
        ∧ ∃ fe, alookup ("layout") e.by_feature = some fe)
  ∧ (top_tokens_for_feature sampleTokensDb ("layout") 5).Pairwise
      (fun t₁ t₂ => claim_token_score sampleTokensDb ("layout") t₂
        ≤ claim_token_score sampleTokensDb ("layout") t₁) :=
  top_tokens_claim sampleTokensDb ("layout") 5 (by decide) (by decide)

-- ==========================
-- The shape of normalised tokens
-- ==========================

theorem mem_collapseWsAux :
    ∀ (l : List Char) (b : Bool) (c : Char), c ∈ collapseWsAux b l →
      c = ' ' ∨ (c ∈ l ∧ isPySpace c = false) := by
  intro l
  induction l with
  | nil =>
    intro b c h
    simp [collapseWsAux] at h
  | cons a rest ih =>
    intro b c h
    simp only [collapseWsAux] at h
    cases hsp : isPySpace a with
    | true =>
      rw [hsp] at h
      simp only [if_pos rfl] at h
      cases b with
      | true =>
        rcases ih true c h with h' | h'
        · exact Or.inl h'
        · exact Or.inr ⟨List.mem_cons_of_mem a h'.1, h'.2⟩
      | false =>
        rcases List.mem_cons.mp h with h' | h'
        · exact Or.inl h'
        · rcases ih true c h' with h'' | h''
          · exact Or.inl h''
          · exact Or.inr ⟨List.mem_cons_of_mem a h''.1, h''.2⟩
    | false =>
      rw [hsp] at h
      simp only [Bool.false_eq_true, if_false] at h
      rcases List.mem_cons.mp h with h' | h'
      · exact Or.inr ⟨h' ▸ List.mem_cons_self a rest, h' ▸ hsp⟩
      · rcases ih false c h' with h'' | h''
        · exact Or.inl h''
        · exact Or.inr ⟨List.mem_cons_of_mem a h''.1, h''.2⟩

theorem collapseWsAux_true_head :
    ∀ (l : List Char) (c : Char), (collapseWsAux true l).head? = some c →
      isPySpace c = false := by
  intro l
  induction l with
  | nil =>
    intro c h
    simp [collapseWsAux] at h
  | cons a rest ih =>
    intro c h
    simp only [collapseWsAux] at h
    cases hsp : isPySpace a with
    | true =>
      rw [hsp] at h
      simp only [if_pos rfl] at h
      exact ih c h
    | false =>
      rw [hsp] at h
      simp only [Bool.false_eq_true, if_false, List.head?_cons] at h
      cases h
      exact hsp

theorem noTwoSpaces_collapseWsAux :
    ∀ (l : List Char) (b : Bool), noTwoSpaces (collapseWsAux b l) = true := by
  intro l
  induction l with
  | nil => intro b; rfl
  | cons a rest ih =>
    intro b
    simp only [collapseWsAux]
    cases hsp : isPySpace a with
    | true =>
      rw [if_pos rfl]
      cases b with
      | true => exact ih true
      | false =>
        simp only [Bool.false_eq_true, if_false]
        cases hX : collapseWsAux true rest with
        | nil => rfl
        | cons d xs =>
          have hd : isPySpace d = false :=
            collapseWsAux_true_head rest d (by rw [hX]; rfl)
          have ht : noTwoSpaces (d :: xs) = true := hX ▸ ih true
          simp [noTwoSpaces, hd, ht]
    | false =>
      simp only [Bool.false_eq_true, if_false]
      cases hX : collapseWsAux false rest with
      | nil => rfl
      | cons d xs =>
        have ht : noTwoSpaces (d :: xs) = true := hX ▸ ih false
        simp [noTwoSpaces, hsp, ht]

theorem noTwoSpaces_take :
    ∀ (l : List Char), noTwoSpaces l = true → ∀ n, noTwoSpaces (l.take n) = true := by
  intro l
  induction l with
  | nil =>
    intro _ n
    simp [List.take_nil]
    rfl
  | cons a rest ih =>
    intro h n
    cases n with
    | zero => rfl
    | succ m =>
      rw [List.take_succ_cons]
      cases rest with
      | nil =>
        simp [List.take_nil]
        rfl
      | cons b rs =>
        have h' : (!(isPySpace a && isPySpace b)) = true ∧ noTwoSpaces (b :: rs) = true := by
          simpa [noTwoSpaces, Bool.and_eq_true] using h
        cases m with
        | zero => rfl
        | succ m' =>
          rw [List.take_succ_cons]
          have ht := ih h'.2 (m' + 1)
          rw [List.take_succ_cons] at ht
          simp [noTwoSpaces, h'.1, ht]

theorem norm_token_chars {s : String} {c : Char} (h : c ∈ (norm_token s).toList) :
    allowedChar c = true := by
  rw [norm_token, List.toList_asString] at h
  have h1 : c ∈ collapseWs ((pyStripChars s.toList).map Char.toLower |>.filter allowedChar) :=
    (List.take_sublist 64 _).subset h
  rcases mem_collapseWsAux _ false c h1 with h2 | h2
  · subst h2
    decide
  · exact List.of_mem_filter h2.1

theorem norm_token_noTwoSpaces (s : String) : noTwoSpaces (norm_token s).toList = true := by
  rw [norm_token, List.toList_asString]
  exact noTwoSpaces_take _ (noTwoSpaces_collapseWsAux _ false) 64

theorem norm_token_len_le (s : String) : (norm_token s).length ≤ 64 := by
  rw [norm_token, List.length_asString]
  calc (List.take 64 _).length ≤ 64 := by
        rw [List.length_take]
        exact min_le_left _ _

theorem valid_token_facts {t : String} (h : valid_token t = true) :
    2 ≤ t.length ∧ t ∉ GENERIC_TOKENS := by
  by_cases h1 : t = "" ∨ t.length < 2
  · simp [valid_token, h1] at h
  · by_cases h2 : t ∈ GENERIC_TOKENS
    · simp [valid_token, h1, h2] at h
    · push_neg at h1
      exact ⟨h1.2, h2⟩

/-- Every token that survives validation after normalisation has the
claimed key shape. -/
theorem norm_token_is_normalized {s : String} (h : valid_token (norm_token s) = true) :
    is_normalized_key (norm_token s) = true := by
  obtain ⟨h2, hg⟩ := valid_token_facts h
  simp only [is_normalized_key, Bool.and_eq_true, decide_eq_true_eq, List.all_eq_true]
  refine ⟨⟨⟨⟨h2, norm_token_len_le s⟩, ?_⟩, norm_token_noTwoSpaces s⟩, hg⟩
  intro c hc
  exact norm_token_chars hc

theorem keys_mergeSuggestion {slug path : String} {now : Nat}
    {idx : List (String × TokenEntry)} {s : Suggestion} {k : String}
    (h : k ∈ (mergeSuggestion slug path now idx s).map Prod.fst) :
    k ∈ idx.map Prod.fst
      ∨ (k = norm_token s.token ∧ valid_token (norm_token s.token) = true) := by
  simp only [mergeSuggestion] at h
  by_cases hv : valid_token (norm_token s.token) = true
  · rw [if_pos hv] at h
    rcases mem_keys_alistUpdate h with h | h
    · exact Or.inr ⟨h, hv⟩
    · exact Or.inl h
  · rw [if_neg hv] at h
    exact Or.inl h

theorem merge_foldl_keys (slug path : String) (now : Nat) :
    ∀ (l : List Suggestion) (idx : List (String × TokenEntry)),
      (∀ k ∈ idx.map Prod.fst, is_normalized_key k = true) →
      ∀ k ∈ (l.foldl (mergeSuggestion slug path now) idx).map Prod.fst,
        is_normalized_key k = true := by
  intro l
  induction l with
  | nil => intro idx h; exact h
  | cons s rest ih =>
    intro idx h
    rw [List.foldl_cons]
    refine ih _ ?_
    intro k hk
    rcases keys_mergeSuggestion hk with hk | hk
    · exact h k hk
    · exact hk.1 ▸ norm_token_is_normalized hk.2

theorem keys_nestedInsert {slug : String} {idx : List (String × TokenEntry)}
    {t : String} {k : String}
    (h : k ∈ (nestedInsert slug idx t).map Prod.fst) :
    k ∈ idx.map Prod.fst ∨ (k = norm_token t ∧ valid_token (norm_token t) = true) := by
  simp only [nestedInsert] at h
  by_cases hv : valid_token (norm_token t) = true
  · rw [if_pos hv] at h
    rcases mem_keys_alistUpdate h with h | h
    · exact Or.inr ⟨h, hv⟩
    · exact Or.inl h
  · rw [if_neg hv] at h
    exact Or.inl h

theorem nested_foldl_keys (slug : String) :
    ∀ (toks : List String) (idx : List (String × TokenEntry)),
      (∀ k ∈ idx.map Prod.fst, is_normalized_key k = true) →
      ∀ k ∈ (toks.foldl (nestedInsert slug) idx).map Prod.fst,
        is_normalized_key k = true := by
  intro toks
  induction toks with
  | nil => intro idx h; exact h
  | cons t rest ih =>
    intro idx h
    rw [List.foldl_cons]
    refine ih _ ?_
    intro k hk
    rcases keys_nestedInsert hk with hk | hk
    · exact h k hk
    · exact hk.1 ▸ norm_token_is_normalized hk.2

theorem convert_features_index_keys :
    ∀ (fkvs : List (String × JVal)) (idx out : List (String × TokenEntry)),
      (∀ k ∈ idx.map Prod.fst, is_normalized_key k = true) →
      convert_features_index fkvs idx = some out →
      ∀ k ∈ out.map Prod.fst, is_normalized_key k = true := by
  intro fkvs
  induction fkvs with
  | nil =>
    intro idx out h heq
    cases heq
    exact h
  | cons p rest ih =>
    intro idx out h heq
    obtain ⟨slug, meta⟩ := p
    cases meta with
    | jobj mkvs =>
      simp only [convert_features_index] at heq
      rcases hit : iterTokenStrings
          (if pyTruthy (pyGetD mkvs ("tokens") .jnull) then pyGetD mkvs ("tokens") .jnull
           else .jarr []) with _ | toks
      · rw [hit] at heq
        exact Option.noConfusion heq
      · rw [hit] at heq
        exact ih _ out (nested_foldl_keys slug toks idx h) heq
    | jnull => exact Option.noConfusion heq
    | jbool b => exact Option.noConfusion heq
    | jnum q => exact Option.noConfusion heq
    | jstr s => exact Option.noConfusion heq
    | jarr xs => exact Option.noConfusion heq

theorem keys_flatAssign {kvs : List (String × JVal)} {now : Nat}
    {idx out : List (String × TokenEntry)} {tok : String}
    (heq : flatAssign kvs now idx tok = some out) {k : String}
    (h : k ∈ out.map Prod.fst) :
    k ∈ idx.map Prod.fst ∨ (k = norm_token tok ∧ valid_token (norm_token tok) = true) := by
  simp only [flatAssign] at heq
  by_cases hv : valid_token (norm_token tok) = true
  · rw [if_pos hv] at heq
    rcases hsh : (if pyTruthy (pyGetD kvs tok .jnull) then pyGetD kvs tok .jnull
        else .jarr []) with _ | _ | _ | _ | xs | _
    all_goals rw [hsh] at heq
    all_goals try dsimp only at heq
    all_goals try exact Option.noConfusion heq
    rcases hsl : asStringList xs with _ | paths
    · rw [hsl] at heq
      exact Option.noConfusion heq
    · rw [hsl] at heq
      rw [Option.map_some'] at heq
      cases heq
      rcases mem_keys_alistUpdate h with h | h
      · exact Or.inr ⟨h, hv⟩
      · exact Or.inl h
  · rw [if_neg hv] at heq
    cases heq
    exact Or.inl h

theorem convert_flat_index_keys (kvs : List (String × JVal)) (now : Nat) :
    ∀ (toks : List String) (idx out : List (String × TokenEntry)),
      (∀ k ∈ idx.map Prod.fst, is_normalized_key k = true) →
      convert_flat_index kvs now toks idx = some out →
      ∀ k ∈ out.map Prod.fst, is_normalized_key k = true := by
  intro toks
  induction toks with
  | nil =>
    intro idx out h heq
    cases heq
    exact h
  | cons t rest ih =>
    intro idx out h heq
    simp only [convert_flat_index] at heq
    rcases hfa : flatAssign kvs now idx t with _ | idx2
    · rw [hfa] at heq
      exact Option.noConfusion heq
    · rw [hfa] at heq
      refine ih idx2 out ?_ heq
      intro k hk
      rcases keys_flatAssign hfa hk with hk | hk
      · exact h k hk
      · exact hk.1 ▸ norm_token_is_normalized hk.2

/-- C7: every key the merge inserts, and every key either legacy upgrade
creates, is a normalised token: 2–64 characters from the restricted
lowercase set, collapsed internal whitespace, and not stop-listed; in
particular merging the stop-listed token `state` and the one-character
token `x` inserts nothing. -/
theorem token_key_normalization_claim :
    (∀ (db : TokensDb) (tv : Int) (mdl slug path : String) (sugg : List Suggestion)
        (now : Nat),
      (∀ k ∈ db.token_index.map Prod.fst, is_normalized_key k = true) →
      ∀ k ∈ (merge_token_index db tv mdl slug path sugg now).token_index.map Prod.fst,
        is_normalized_key k = true)
  ∧ (∀ (kvs : List (String × JVal)) (db' : TokensDb),
      convert_features_db kvs = some db' →
      ∀ k ∈ db'.token_index.map Prod.fst, is_normalized_key k = true)
  ∧ (∀ (kvs : List (String × JVal)) (now : Nat) (db' : TokensDb),
      convert_flat_db kvs now = some db' →
      ∀ k ∈ db'.token_index.map Prod.fst, is_normalized_key k = true)
  ∧ (merge_token_index defaultTokensDb 2 ("m") ("layout") ("f.rs")
      [⟨"state", 0.9⟩, ⟨"x", 0.9⟩] 0).token_index = [] := by
  refine ⟨?_, ?_, ?_, ?_⟩
  · intro db tv mdl slug path sugg now h
    exact merge_foldl_keys slug path now sugg db.token_index h
  · intro kvs db' heq
    simp only [convert_features_db] at heq
    rcases hfv : pyGetD kvs ("features") .jnull with _ | _ | _ | _ | _ | fkvs
    all_goals rw [hfv] at heq
    all_goals try dsimp only at heq
    all_goals try exact Option.noConfusion heq
    rcases hci : convert_features_index fkvs [] with _ | idx
    · rw [hci] at heq
      exact Option.noConfusion heq
    · rw [hci] at heq
      rw [Option.map_some'] at heq
      cases heq
      exact convert_features_index_keys fkvs [] idx (by simp) hci
  · intro kvs now db' heq
    simp only [convert_flat_db] at heq
    rcases hci : convert_flat_index kvs now (flat_token_keys kvs) [] with _ | idx
    · rw [hci] at heq
      exact Option.noConfusion heq
    · rw [hci] at heq
      rw [Option.map_some'] at heq
      cases heq
      exact convert_flat_index_keys kvs now (flat_token_keys kvs) [] idx (by simp) hci
  · rfl

theorem token_key_normalization_witness :
    ∀ k ∈ (merge_token_index defaultTokensDb 2 ("m") ("layout") ("f.rs")
      [⟨"Slot  Table", 1⟩] 0).token_index.map Prod.fst, is_normalized_key k = true :=
  token_key_normalization_claim.1 defaultTokensDb 2 ("m") ("layout") ("f.rs")
    [⟨"Slot  Table", 1⟩] 0 (by simp [defaultTokensDb])

-- ==========================
-- JSON recovery lemmas
-- ==========================

theorem fence_head {c : Char} {rest : List Char}
    (h : fenceChars.isPrefixOf (c :: rest) = true) : c = '`' := by
  simp only [fenceChars, List.isPrefixOf, Bool.and_eq_true, beq_iff_eq] at h
  exact h.1.symm

theorem isPrefixOf_append_self : ∀ (l t : List Char), l.isPrefixOf (l ++ t) = true := by
  intro l t
  induction l with
  | nil => simp [List.isPrefixOf]
  | cons a rest ih => simp [List.isPrefixOf, ih]

theorem scanFence_none {cs : List Char} (h : '`' ∉ cs) : scanFence cs = none := by
  induction cs with
  | nil => rfl
  | cons c rest ih =>
    have hc : c ≠ '`' := fun he => h (he ▸ List.mem_cons_self c rest)
    have hpre : fenceChars.isPrefixOf (c :: rest) = false := by
      cases hp : fenceChars.isPrefixOf (c :: rest) with
      | false => rfl
      | true => exact absurd (fence_head hp) hc
    simp only [scanFence, hpre, Bool.false_eq_true, if_false]
    exact ih fun hm => h (List.mem_cons_of_mem c hm)

theorem scanFence_append {pre rest : List Char} (h : '`' ∉ pre) :
    scanFence (pre ++ rest) = scanFence rest := by
  induction pre with
  | nil => rfl
  | cons c cs ih =>
    have hc : c ≠ '`' := fun he => h (he ▸ List.mem_cons_self c cs)
    have hpre : fenceChars.isPrefixOf (c :: (cs ++ rest)) = false := by
      cases hp : fenceChars.isPrefixOf (c :: (cs ++ rest)) with
      | false => rfl
      | true => exact absurd (fence_head hp) hc
    simp only [List.cons_append, scanFence, List.append_eq, hpre, Bool.false_eq_true,
      if_false]
    exact ih fun hm => h (List.mem_cons_of_mem c hm)

theorem closesAt_of_head {xs : List Char} (c : Char)
    (hh : (xs.dropWhile isPySpace).head? = some c) (hc : c ≠ '`') :
    closesAt xs = false := by
  unfold closesAt
  cases hdw : xs.dropWhile isPySpace with
  | nil => rw [hdw] at hh; exact absurd hh (by simp)
  | cons d ds =>
    rw [hdw] at hh
    have hd : d = c := by simpa using hh
    subst hd
    cases hp : fenceChars.isPrefixOf (d :: ds) with
    | false => rfl
    | true => exact absurd (fence_head hp) hc

theorem dropWhile_append_head (p : Char → Bool) :
    ∀ (l t : List Char), (∃ x ∈ l, p x = false) →
      ∃ c, ((l ++ t).dropWhile p).head? = some c ∧ c ∈ l ∧ p c = false := by
  intro l
  induction l with
  | nil =>
    intro t h
    rcases h with ⟨x, hx, _⟩
    simp at hx
  | cons a rest ih =>
    intro t h
    cases hpa : p a with
    | false =>
      refine ⟨a, ?_, List.mem_cons_self a rest, hpa⟩
      simp [List.dropWhile_cons, hpa]
    | true =>
      rcases h with ⟨x, hx, hpx⟩
      have hxr : x ∈ rest := by
        rcases List.mem_cons.mp hx with hx | hx
        · rw [hx] at hpx; rw [hpx] at hpa; exact absurd hpa (by simp)
        · exact hx
      rcases ih t ⟨x, hxr, hpx⟩ with ⟨c, hc1, hc2, hc3⟩
      refine ⟨c, ?_, List.mem_cons_of_mem a hc2, hc3⟩
      simpa [List.dropWhile_cons, hpa] using hc1

theorem fenceContent_split :
    ∀ (content tail : List Char), closesAt tail = true →
      (∀ n, n < content.length → closesAt (content.drop n ++ tail) = false) →
      fenceContent (content ++ tail) = some content := by
  intro content
  induction content with
  | nil =>
    intro tail hclose _
    cases tail with
    | nil => exact absurd hclose (by decide)
    | cons c rest => simp [fenceContent, hclose]
  | cons c cs ih =>
    intro tail hclose hnot
    have h0 : closesAt (c :: (cs ++ tail)) = false := by
      have := hnot 0 (by simp)
      simpa using this
    rw [List.cons_append]
    show (if closesAt (c :: (cs ++ tail)) = true then some []
      else (fenceContent (cs ++ tail)).map (fun g => c :: g)) = some (c :: cs)
    rw [h0, if_neg Bool.false_ne_true, ih tail hclose ?_]
    · rfl
    · intro n hn
      have := hnot (n + 1) (by simpa using Nat.succ_lt_succ hn)
      simpa using this

theorem getLast?_mem_drop :
    ∀ (j : List Char) (m : Nat) (b : Char), m < j.length → j.getLast? = some b →
      b ∈ j.drop m := by
  intro j
  induction j with
  | nil => intro m b hm _; simp at hm
  | cons a rest ih =>
    intro m b hm hb
    cases m with
    | zero =>
      simp only [List.drop_zero]
      exact List.mem_of_mem_getLast? hb
    | succ m' =>
      rw [List.drop_succ_cons]
      cases rest with
      | nil => simp at hm
      | cons a2 r2 =>
        have hb' : (a2 :: r2).getLast? = some b := by
          rw [List.getLast?_cons_cons] at hb
          exact hb
        exact ih m' b (by simpa using Nat.lt_of_succ_lt_succ hm) hb'

theorem pyStripChars_eq_self {j : List Char} {a b : Char}
    (hh : j.head? = some a) (ha : isPySpace a = false)
    (hl : j.getLast? = some b) (hb : isPySpace b = false) :
    pyStripChars j = j := by
  unfold pyStripChars
  have h1 : j.dropWhile isPySpace = j := by
    cases j with
    | nil => rfl
    | cons c cs =>
      have : c = a := by simpa using hh
      subst this
      simp [List.dropWhile_cons, ha]
  have h2 : j.reverse.dropWhile isPySpace = j.reverse := by
    cases hr : j.reverse with
    | nil => rfl
    | cons c cs =>
      have hcb : c = b := by
        have := List.head?_reverse j
        rw [hr] at this
        simp only [List.head?_cons] at this
        rw [hl] at this
        exact (Option.some.injEq _ _).mp this
      subst hcb
      simp [List.dropWhile_cons, hb]
  rw [h1, h2, List.reverse_reverse]

theorem scanFence_wrapped (pre post j : List Char)
    (hpre : '`' ∉ pre) (hj : '`' ∉ j)
    (hhead : j.head? = some lbrace) (hlast : j.getLast? = some rbrace) :
    scanFence (pre ++
        ('`' :: '`' :: '`' :: 'j' :: 's' :: 'o' :: 'n' :: '\n' ::
          (j ++ '\n' :: '`' :: '`' :: '`' :: post))) = some j := by
  have hjne : j ≠ [] := by
    intro h
    rw [h] at hhead
    exact Option.noConfusion hhead
  rw [scanFence_append hpre]
  have hfp : fenceChars.isPrefixOf
      ('`' :: '`' :: '`' :: 'j' :: 's' :: 'o' :: 'n' :: '\n' ::
        (j ++ '\n' :: '`' :: '`' :: '`' :: post)) = true := by
    simp [fenceChars, List.isPrefixOf]
  have hclose : closesAt ('\n' :: '`' :: '`' :: '`' :: post) = true := by
    unfold closesAt
    rw [List.dropWhile_cons]
    simp only [show isPySpace '\n' = true from rfl, if_pos rfl]
    rw [List.dropWhile_cons]
    simp only [show isPySpace '`' = false from rfl, Bool.false_eq_true, if_false]
    exact isPrefixOf_append_self fenceChars post
  have hnot : ∀ n, n < ('\n' :: j).length →
      closesAt (('\n' :: j).drop n ++ '\n' :: '`' :: '`' :: '`' :: post) = false := by
    intro n hn
    cases n with
    | zero =>
      cases j with
      | nil => exact absurd hhead (by simp)
      | cons a j' =>
        have ha : a = lbrace := by simpa using hhead
        subst ha
        refine closesAt_of_head lbrace ?_ (by decide)
        rw [List.drop_zero, List.cons_append, List.dropWhile_cons]
        simp only [show isPySpace '\n' = true from rfl, if_pos rfl]
        rw [List.cons_append, List.dropWhile_cons]
        simp only [show isPySpace lbrace = false from rfl, Bool.false_eq_true, if_false]
        rfl
    | succ m =>
      have hm : m < j.length := by simpa using Nat.lt_of_succ_lt_succ hn
      have hrb : rbrace ∈ j.drop m := getLast?_mem_drop j m rbrace hm hlast
      rcases dropWhile_append_head isPySpace (j.drop m)
          ('\n' :: '`' :: '`' :: '`' :: post) ⟨rbrace, hrb, by decide⟩ with
        ⟨c, hc1, hc2, hc3⟩
      have hcj : c ∈ j := List.drop_subset m j hc2
      have hcnt : c ≠ '`' := fun he => hj (he ▸ hcj)
      rw [List.drop_succ_cons]
      exact closesAt_of_head c hc1 hcnt
  have hcontent : fenceContent ('\n' :: (j ++ '\n' :: '`' :: '`' :: '`' :: post))
      = some ('\n' :: j) := by
    rw [← List.cons_append]
    exact fenceContent_split ('\n' :: j) ('\n' :: '`' :: '`' :: '`' :: post) hclose hnot
  have hstrip : pyStripChars ('\n' :: j) = j := by
    have h1 : pyStripChars ('\n' :: j) = pyStripChars j := by
      unfold pyStripChars
      rw [List.dropWhile_cons, if_pos (show isPySpace '\n' = true from rfl)]
    rw [h1]
    exact pyStripChars_eq_self hhead (by decide) hlast (by decide)
  show (if fenceChars.isPrefixOf
      ('`' :: '`' :: '`' :: 'j' :: 's' :: 'o' :: 'n' :: '\n' ::
        (j ++ '\n' :: '`' :: '`' :: '`' :: post)) = true then _ else _) = some j
  rw [if_pos hfp]
  show (match fenceContent
      (if jsonTagCI ('j' :: 's' :: 'o' :: 'n' :: '\n' ::
          (j ++ '\n' :: '`' :: '`' :: '`' :: post)) = true
       then '\n' :: (j ++ '\n' :: '`' :: '`' :: '`' :: post)
       else 'j' :: 's' :: 'o' :: 'n' :: '\n' :: (j ++ '\n' :: '`' :: '`' :: '`' :: post))
      with
    | some g => some (pyStripChars g)
    | none => scanFence
        ('`' :: '`' :: 'j' :: 's' :: 'o' :: 'n' :: '\n' ::
          (j ++ '\n' :: '`' :: '`' :: '`' :: post))) = some j
  rw [if_pos (show jsonTagCI _ = true by simp [jsonTagCI])]
  rw [hcontent]
  show some (pyStripChars ('\n' :: j)) = some j
  rw [hstrip]

/-- C5: the JSON recovery tries the fenced block first, then the first-brace
to last-brace slice, then hands the text back; an answer that wraps a JSON
object in a ```` ```json ```` fence between backtick-free commentary
recovers exactly the object text, the same text a bare response yields. -/
theorem json_recovery_claim (pre post j : List Char)
    (hpre : '`' ∉ pre) (hj : '`' ∉ j)
    (hhead : j.head? = some lbrace) (hlast : j.getLast? = some rbrace)
    (hlen : 2 ≤ j.length) :
    extract_json_blob
        (pre ++ ("```json\n").toList ++ j ++ ("\n```").toList ++ post) = j
  ∧ extract_json_blob j = j
  ∧ (∀ (cs g : List Char), cs ≠ [] → scanFence cs = some g → extract_json_blob cs = g)
  ∧ (∀ (cs : List Char) (f l : Nat), cs ≠ [] → scanFence cs = none →
      firstIdxOf lbrace cs = some f → lastIdxOf rbrace cs = some l → f < l →
      extract_json_blob cs = (cs.drop f).take (l + 1 - f)) := by
  have hjne : j ≠ [] := by
    intro h
    rw [h] at hhead
    exact Option.noConfusion hhead
  refine ⟨?_, ?_, ?_, ?_⟩
  · have hform : pre ++ ("```json\n").toList ++ j ++ ("\n```").toList ++ post
        = pre ++ ('`' :: '`' :: '`' :: 'j' :: 's' :: 'o' :: 'n' :: '\n' ::
            (j ++ '\n' :: '`' :: '`' :: '`' :: post)) := by
      show pre ++ ['`', '`', '`', 'j', 's', 'o', 'n', '\n'] ++ j ++ ['\n', '`', '`', '`']
          ++ post = _
      simp [List.append_assoc]
    rw [hform]
    have hne : pre ++ ('`' :: '`' :: '`' :: 'j' :: 's' :: 'o' :: 'n' :: '\n' ::
        (j ++ '\n' :: '`' :: '`' :: '`' :: post)) ≠ [] := by
      intro h
      have := congrArg List.length h
      simp [List.length_append] at this
    have hscan := scanFence_wrapped pre post j hpre hj hhead hlast
    simp only [extract_json_blob, if_neg hne, hscan]
  · have hscan : scanFence j = none := scanFence_none hj
    cases j with
    | nil => exact absurd rfl hjne
    | cons a j' =>
      have ha : a = lbrace := by simpa using hhead
      subst ha
      have hfi : firstIdxOf lbrace (lbrace :: j') = some 0 := by
        simp [firstIdxOf]
      have hli : lastIdxOf rbrace (lbrace :: j') = some ((lbrace :: j').length - 1) := by
        unfold lastIdxOf
        cases hr : (lbrace :: j').reverse with
        | nil => exact absurd (congrArg List.length hr) (by simp)
        | cons c cs =>
          have hcb : c = rbrace := by
            have h := List.head?_reverse (lbrace :: j')
            rw [hr] at h
            simp only [List.head?_cons] at h
            rw [hlast] at h
            exact (Option.some.injEq _ _).mp h
          subst hcb
          simp [firstIdxOf]
      simp only [extract_json_blob, if_neg hjne, hscan, hfi, hli]
      have hgt : 0 < (lbrace :: j').length - 1 := by
        simp only [List.length_cons] at hlen ⊢
        omega
      rw [if_pos hgt, List.drop_zero]
      have : (lbrace :: j').length - 1 + 1 - 0 = (lbrace :: j').length := by
        simp only [List.length_cons]
        omega
      rw [this, List.take_length]
  · intro cs g hne hscan
    simp only [extract_json_blob, if_neg hne, hscan]
  · intro cs f l hne hscan hfi hli hfl
    simp only [extract_json_blob, if_neg hne, hscan, hfi, hli, if_pos hfl]

theorem json_recovery_claim_witness :
    extract_json_blob
        ((("Sure: ").toList ++ ("```json\n").toList
          ++ ("\x7b\"scores\":\x7b\x7d\x7d").toList ++ ("\n```").toList
          ++ (" done").toList))
      = ("\x7b\"scores\":\x7b\x7d\x7d").toList
  ∧ extract_json_blob (("\x7b\"scores\":\x7b\x7d\x7d").toList)
      = ("\x7b\"scores\":\x7b\x7d\x7d").toList := by
  have h := json_recovery_claim (("Sure: ").toList) ((" done").toList)
    (("\x7b\"scores\":\x7b\x7d\x7d").toList)
    (by decide) (by decide) (by decide) (by decide) (by decide)
  exact ⟨h.1, h.2.1⟩

-- ==========================
-- Legacy-shape upgrades and example paths
-- ==========================

theorem alistUpdate_entries {β : Type} (P : β → Prop) {k : String} {f : β → β} {d : β}
    (hfd : P (f d)) (hf : ∀ e, P e → P (f e)) :
    ∀ l : List (String × β), (∀ te ∈ l, P te.2) →
      ∀ te ∈ alistUpdate k f d l, P te.2 := by
  intro l
  induction l with
  | nil =>
    intro _ te hte
    simp only [alistUpdate] at hte
    rcases List.mem_singleton.mp hte with rfl
    exact hfd
  | cons p rest ih =>
    obtain ⟨a, e⟩ := p
    intro hl te hte
    by_cases hk : a = k
    · subst hk
      simp only [alistUpdate, if_pos rfl] at hte
      rcases List.mem_cons.mp hte with rfl | hte
      · exact hf e (hl (a, e) (List.mem_cons_self _ _))
      · exact hl te (List.mem_cons_of_mem _ hte)
    · simp only [alistUpdate, if_neg hk] at hte
      rcases List.mem_cons.mp hte with rfl | hte
      · exact hl (a, e) (List.mem_cons_self _ _)
      · exact ih (fun q hq => hl q (List.mem_cons_of_mem _ hq)) te hte

theorem nested_entries_examples (slug : String) :
    ∀ (toks : List String) (idx : List (String × TokenEntry)),
      (∀ te ∈ idx, te.2.global.examples = []) →
      ∀ te ∈ toks.foldl (nestedInsert slug) idx, te.2.global.examples = [] := by
  intro toks
  induction toks with
  | nil => intro idx h; exact h
  | cons t rest ih =>
    intro idx h
    rw [List.foldl_cons]
    refine ih _ ?_
    simp only [nestedInsert]
    by_cases hv : valid_token (norm_token t) = true
    · rw [if_pos hv]
      refine alistUpdate_entries (fun e => e.global.examples = []) ?_ ?_ idx h
      · rfl
      · intro e he
        exact he
    · rw [if_neg hv]
      exact h

theorem convert_features_entries :
    ∀ (fkvs : List (String × JVal)) (idx out : List (String × TokenEntry)),
      (∀ te ∈ idx, te.2.global.examples = []) →
      convert_features_index fkvs idx = some out →
      ∀ te ∈ out, te.2.global.examples = [] := by
  intro fkvs
  induction fkvs with
  | nil =>
    intro idx out h heq
    cases heq
    exact h
  | cons p rest ih =>
    intro idx out h heq
    obtain ⟨slug, meta⟩ := p
    cases meta with
    | jobj mkvs =>
      simp only [convert_features_index] at heq
      rcases hit : iterTokenStrings
          (if pyTruthy (pyGetD mkvs ("tokens") .jnull) then pyGetD mkvs ("tokens") .jnull
           else .jarr []) with _ | toks
      · rw [hit] at heq
        exact Option.noConfusion heq
      · rw [hit] at heq
        exact ih _ out (nested_entries_examples slug toks idx h) heq
    | jnull => exact Option.noConfusion heq
    | jbool b => exact Option.noConfusion heq
    | jnum q => exact Option.noConfusion heq
    | jstr s => exact Option.noConfusion heq
    | jarr xs => exact Option.noConfusion heq

theorem flatAssign_lookup_ne {kvs : List (String × JVal)} {now : Nat}
    {idx idx2 : List (String × TokenEntry)} {t key : String}
    (heq : flatAssign kvs now idx t = some idx2) (hne : norm_token t ≠ key) :
    alookup key idx2 = alookup key idx := by
  simp only [flatAssign] at heq
  by_cases hv : valid_token (norm_token t) = true
  · rw [if_pos hv] at heq
    rcases hsh : (if pyTruthy (pyGetD kvs t .jnull) then pyGetD kvs t .jnull
        else .jarr []) with _ | _ | _ | _ | xs | _
    all_goals rw [hsh] at heq
    all_goals try dsimp only at heq
    all_goals try exact Option.noConfusion heq
    rcases hsl : asStringList xs with _ | paths
    · rw [hsl] at heq
      exact Option.noConfusion heq
    · rw [hsl] at heq
      rw [Option.map_some'] at heq
      cases heq
      exact alookup_alistUpdate_ne hne _ _ idx
  · rw [if_neg hv] at heq
    cases heq
    rfl

theorem flatAssign_self {kvs : List (String × JVal)} (now : Nat)
    (idx : List (String × TokenEntry)) {tok : String} {xs : List JVal}
    {paths : List String}
    (hv : valid_token (norm_token tok) = true)
    (hget : pyGetD kvs tok .jnull = .jarr xs) (hxne : xs ≠ [])
    (hsl : asStringList xs = some paths) :
    flatAssign kvs now idx tok
      = some (alistUpdate (norm_token tok)
          (fun e => ⟨⟨paths.length, (paths.length : ℚ), (dedupFirst paths).take 6, now⟩,
            e.by_feature⟩) emptyTokenEntry idx) := by
  have ht : pyTruthy (.jarr xs) = true := by
    cases xs with
    | nil => exact absurd rfl hxne
    | cons a rest => rfl
  simp only [flatAssign]
  rw [if_pos hv, hget, if_pos ht]
  dsimp only
  rw [hsl, Option.map_some']

theorem convert_flat_preserved (kvs : List (String × JVal)) (now : Nat) (key : String) :
    ∀ (toks : List String) (idx out : List (String × TokenEntry)),
      convert_flat_index kvs now toks idx = some out →
      (∀ t ∈ toks, norm_token t ≠ key) →
      alookup key out = alookup key idx := by
  intro toks
  induction toks with
  | nil =>
    intro idx out heq _
    cases heq
    rfl
  | cons t rest ih =>
    intro idx out heq hne
    simp only [convert_flat_index] at heq
    rcases hfa : flatAssign kvs now idx t with _ | idx2
    · rw [hfa] at heq
      exact Option.noConfusion heq
    · rw [hfa] at heq
      rw [ih idx2 out heq (fun t' ht' => hne t' (List.mem_cons_of_mem t ht'))]
      exact flatAssign_lookup_ne hfa (hne t (List.mem_cons_self t rest))

theorem convert_flat_entry (kvs : List (String × JVal)) (now : Nat) (tok : String)
    (xs : List JVal) (paths : List String)
    (hv : valid_token (norm_token tok) = true)
    (hget : pyGetD kvs tok .jnull = .jarr xs) (hxne : xs ≠ [])
    (hsl : asStringList xs = some paths) :
    ∀ (toks : List String) (idx out : List (String × TokenEntry)),
      convert_flat_index kvs now toks idx = some out →
      tok ∈ toks →
      (∀ t ∈ toks, norm_token t = norm_token tok → t = tok) →
      ∃ e, alookup (norm_token tok) out = some e
        ∧ e.global = ⟨paths.length, (paths.length : ℚ), (dedupFirst paths).take 6, now⟩ := by
  intro toks
  induction toks with
  | nil =>
    intro idx out _ hmem _
    simp at hmem
  | cons t rest ih =>
    intro idx out heq hmem huniq
    simp only [convert_flat_index] at heq
    rcases hfa : flatAssign kvs now idx t with _ | idx2
    · rw [hfa] at heq
      exact Option.noConfusion heq
    · rw [hfa] at heq
      by_cases hmr : tok ∈ rest
      · exact ih idx2 out heq hmr (fun t' ht' => huniq t' (List.mem_cons_of_mem t ht'))
      · have htk : t = tok := by
          rcases List.mem_cons.mp hmem with h | h
          · exact h.symm
          · exact absurd h hmr
        subst htk
        have hfa' := flatAssign_self now idx hv hget hxne hsl
        rw [hfa'] at hfa
        have hidx2 := (Option.some.injEq _ _).mp hfa
        have hrest_ne : ∀ t' ∈ rest, norm_token t' ≠ norm_token t := by
          intro t' ht' he
          exact hmr ((huniq t' (List.mem_cons_of_mem t ht') he) ▸ ht')
        rw [convert_flat_preserved kvs now (norm_token t) rest idx2 out heq hrest_ne]
        rw [← hidx2, alookup_alistUpdate_self]
        exact ⟨_, rfl, rfl⟩

/-- The seven-path flat legacy document used to exhibit the example cap. -/
def sevenPathDoc : List (String × JVal) :=
  [("alpha", .jarr [.jstr ("p1"), .jstr ("p2"), .jstr ("p3"), .jstr ("p4"),
    .jstr ("p5"), .jstr ("p6"), .jstr ("p7")])]

/-- C8 counterexample: upgrading a flat legacy document whose token `alpha`
lists seven distinct example paths keeps only the first six; the path `p7`
is present in the document but absent from the loaded examples. -/
theorem flat_upgrade_seventh_path_lost :
    ((alookup ("alpha")
        ((load_tokens_db (some (.jobj sevenPathDoc)) 0).token_index)).map
      (fun e => e.global.examples)) = some ["p1", "p2", "p3", "p4", "p5", "p6"]
  ∧ ("p7") ∈ jvalToStrList (pyGetD sevenPathDoc ("alpha") .jnull)
  ∧ ("p7") ∉ (["p1", "p2", "p3", "p4", "p5", "p6"] : List String) := by
  have h1 : norm_token ("alpha") = "alpha" := by decide
  have h2 : valid_token ("alpha") = true := by decide
  refine ⟨?_, by decide, by decide⟩
  norm_num [load_tokens_db, sevenPathDoc, pyTruthy, pyGetD, alookup, flat_token_keys,
    convert_flat_db, convert_flat_index, flatAssign, asStringList, dedupFirst,
    dedupFirstAux, alistUpdate, emptyTokenEntry, isListVal, h1, h2, List.filter]
  decide

/-- C8 amended: the nested legacy shape carries no example paths, so its
upgrade produces only empty example lists; the flat legacy shape is upgraded
with the first six distinct example paths of each key, in first-seen order —
paths beyond the cap of six are dropped, and a key whose normalisation
collides with a later key is overwritten by it (the stated conditions
exclude that). -/
theorem legacy_upgrade_examples_claim :
    (∀ (kvs : List (String × JVal)) (db' : TokensDb),
      convert_features_db kvs = some db' →
      ∀ te ∈ db'.token_index, te.2.global.examples = [])
  ∧ (∀ (kvs : List (String × JVal)) (now : Nat) (db' : TokensDb) (tok : String)
      (xs : List JVal) (paths : List String),
      convert_flat_db kvs now = some db' →
      tok ∈ flat_token_keys kvs →
      valid_token (norm_token tok) = true →
      pyGetD kvs tok .jnull = .jarr xs →
      xs ≠ [] →
      asStringList xs = some paths →
      (∀ t ∈ flat_token_keys kvs, norm_token t = norm_token tok → t = tok) →
      ∃ e, alookup (norm_token tok) db'.token_index = some e
        ∧ e.global.examples = (dedupFirst paths).take 6
        ∧ e.global.count = paths.length) := by
  constructor
  · intro kvs db' heq
    simp only [convert_features_db] at heq
    rcases hfv : pyGetD kvs ("features") .jnull with _ | _ | _ | _ | _ | fkvs
    all_goals rw [hfv] at heq
    all_goals try dsimp only at heq
    all_goals try exact Option.noConfusion heq
    rcases hci : convert_features_index fkvs [] with _ | idx
    · rw [hci] at heq
      exact Option.noConfusion heq
    · rw [hci] at heq
      rw [Option.map_some'] at heq
      cases heq
      exact convert_features_entries fkvs [] idx (by simp) hci
  · intro kvs now db' tok xs paths heq hmem hv hget hxne hsl huniq
    simp only [convert_flat_db] at heq
    rcases hci : convert_flat_index kvs now (flat_token_keys kvs) [] with _ | idx
    · rw [hci] at heq
      exact Option.noConfusion heq
    · rw [hci] at heq
      rw [Option.map_some'] at heq
      cases heq
      rcases convert_flat_entry kvs now tok xs paths hv hget hxne hsl
          (flat_token_keys kvs) [] idx hci hmem huniq with ⟨e, he1, he2⟩
      exact ⟨e, he1, by rw [he2], by rw [he2]⟩

/-- The three-path flat legacy document used to instantiate the amended
claim (one duplicated path, so de-duplication is visible). -/
def betaDoc : List (String × JVal) :=
  [("beta", .jarr [.jstr ("q1"), .jstr ("q1"), .jstr ("q2")])]

theorem legacy_upgrade_examples_witness :
    ∃ e, alookup (norm_token ("beta"))
        ((⟨.jnull, .jnull,
          [("beta", ⟨⟨3, ((3 : Nat) : ℚ), ["q1", "q2"], 7⟩, []⟩)]⟩ :
          TokensDb)).token_index = some e
      ∧ e.global.examples = (dedupFirst ["q1", "q1", "q2"]).take 6
      ∧ e.global.count = (["q1", "q1", "q2"] : List String).length := by
  have h1 : norm_token ("beta") = "beta" := by decide
  have h2 : valid_token ("beta") = true := by decide
  have hconv : convert_flat_db betaDoc 7
      = some ⟨.jnull, .jnull,
          [("beta", ⟨⟨3, ((3 : Nat) : ℚ), ["q1", "q2"], 7⟩, []⟩)]⟩ := by
    rfl
  exact legacy_upgrade_examples_claim.2 betaDoc 7 _ ("beta")
    [.jstr ("q1"), .jstr ("q1"), .jstr ("q2")] ["q1", "q1", "q2"] hconv
    (by decide) h2 rfl (by simp) rfl (by decide)

-- ==========================
-- The persisted token document
-- ==========================

theorem mem_keys_tokens_map_fold :
    ∀ (l : List (String × TokenEntry)) (m : List (String × JVal)) (k : String),
      (k ∈ (l.foldl (fun m te =>
          if te.2.global.examples ≠ [] then
            alistSet te.1 (.jarr ((dedupFirst te.2.global.examples).map .jstr)) m
          else m) m).map Prod.fst
        ↔ k ∈ m.map Prod.fst ∨ ∃ e, (k, e) ∈ l ∧ e.global.examples ≠ []) := by
  intro l
  induction l with
  | nil =>
    intro m k
    simp
  | cons te rest ih =>
    intro m k
    obtain ⟨a, e0⟩ := te
    rw [List.foldl_cons]
    by_cases hex : e0.global.examples ≠ []
    · simp only [if_pos hex]
      rw [ih, mem_keys_alistSet]
      constructor
      · rintro (h | h)
        · rcases h with rfl | h
          · exact Or.inr ⟨e0, List.mem_cons_self _ _, hex⟩
          · exact Or.inl h
        · rcases h with ⟨e, he, hne⟩
          exact Or.inr ⟨e, List.mem_cons_of_mem _ he, hne⟩
      · rintro (h | h)
        · exact Or.inl (Or.inr h)
        · rcases h with ⟨e, he, hne⟩
          rcases List.mem_cons.mp he with he | he
          · rcases Prod.mk.injEq .. ▸ he with ⟨rfl, rfl⟩
            exact Or.inl (Or.inl rfl)
          · exact Or.inr ⟨e, he, hne⟩
    · simp only [if_neg hex]
      rw [ih]
      constructor
      · rintro (h | ⟨e, he, hne⟩)
        · exact Or.inl h
        · exact Or.inr ⟨e, List.mem_cons_of_mem _ he, hne⟩
      · rintro (h | ⟨e, he, hne⟩)
        · exact Or.inl h
        · rcases List.mem_cons.mp he with he | he
          · rcases Prod.mk.injEq .. ▸ he with ⟨rfl, rfl⟩
            exact absurd hne hex
          · exact Or.inr ⟨e, he, hne⟩

theorem mem_keys_tokens_map (db : TokensDb) (k : String) :
    k ∈ (tokens_map_of db).map Prod.fst
      ↔ ∃ e, (k, e) ∈ db.token_index ∧ e.global.examples ≠ [] := by
  have h := mem_keys_tokens_map_fold db.token_index [] k
  simpa [tokens_map_of] using h

theorem mem_keys_alistUpdateAll {β : Type} :
    ∀ (m out : List (String × β)) (k : String),
      (k ∈ (alistUpdateAll out m).map Prod.fst
        ↔ k ∈ out.map Prod.fst ∨ k ∈ m.map Prod.fst) := by
  intro m
  induction m with
  | nil => intro out k; simp [alistUpdateAll]
  | cons p rest ih =>
    intro out k
    rw [show alistUpdateAll out (p :: rest)
        = alistUpdateAll (alistSet p.1 p.2 out) rest from rfl]
    rw [ih, mem_keys_alistSet]
    simp only [List.map_cons, List.mem_cons]
    tauto

theorem mem_unique_of_nodup {β : Type} {l : List (String × β)} {k : String} {v v' : β}
    (hnd : (l.map Prod.fst).Nodup) (h1 : (k, v) ∈ l) (h2 : (k, v') ∈ l) : v = v' := by
  have e1 := alookup_eq_of_mem hnd h1
  have e2 := alookup_eq_of_mem hnd h2
  rw [e1] at e2
  exact ((Option.some.injEq _ _).mp e2)

/-- C10 amended: the persisted document always carries the two reserved keys
`taxonomy_version` and `model`; apart from those, a token key appears in the
document exactly when its global example list is non-empty, and a token with
empty examples (such as one produced by the nested legacy upgrade) is
silently left out of the flat token map. -/
theorem saved_doc_keys_claim (db : TokensDb)
    (hnd : (db.token_index.map Prod.fst).Nodup) :
    (∀ k, k ∈ (save_tokens_db db).map Prod.fst ↔
      (k = "taxonomy_version" ∨ k = "model" ∨ k ∈ (tokens_map_of db).map Prod.fst))
  ∧ (∀ tok e, (tok, e) ∈ db.token_index →
      (tok ∈ (tokens_map_of db).map Prod.fst ↔ e.global.examples ≠ []))
  ∧ (∀ tok e, (tok, e) ∈ db.token_index → tok ≠ "taxonomy_version" → tok ≠ "model" →
      (tok ∈ (save_tokens_db db).map Prod.fst ↔ e.global.examples ≠ [])) := by
  have h1 : ∀ k, k ∈ (save_tokens_db db).map Prod.fst ↔
      (k = "taxonomy_version" ∨ k = "model" ∨ k ∈ (tokens_map_of db).map Prod.fst) := by
    intro k
    unfold save_tokens_db
    rw [mem_keys_alistUpdateAll]
    simp only [List.map_cons, List.map_nil, List.mem_cons, List.not_mem_nil, or_false]
    tauto
  have h2 : ∀ tok e, (tok, e) ∈ db.token_index →
      (tok ∈ (tokens_map_of db).map Prod.fst ↔ e.global.examples ≠ []) := by
    intro tok e hm
    rw [mem_keys_tokens_map]
    constructor
    · rintro ⟨e', he', hne⟩
      rw [mem_unique_of_nodup hnd hm he']
      exact hne
    · intro hne
      exact ⟨e, hm, hne⟩
  refine ⟨h1, h2, ?_⟩
  intro tok e hm ht hmod
  rw [h1 tok]
  constructor
  · rintro (rfl | rfl | hk)
    · exact absurd rfl ht
    · exact absurd rfl hmod
    · exact (h2 tok e hm).mp hk
  · intro hne
    exact Or.inr (Or.inr ((h2 tok e hm).mpr hne))

theorem saved_doc_keys_witness :
    ("alpha") ∈ (save_tokens_db sampleTokensDb).map Prod.fst
      ↔ (["a.rs"] : List String) ≠ [] :=
  (saved_doc_keys_claim sampleTokensDb (by decide)).2.2 ("alpha")
    ⟨⟨2, 1, ["a.rs"], 0⟩, [("layout", ⟨2, 1⟩)]⟩ (List.mem_cons_self _ _)
    (by decide) (by decide)

/-- A database whose one token is literally named `model` and carries no
examples. -/
def reservedDb : TokensDb :=
  ⟨.jnum 2, .jstr ("m"), [("model", ⟨⟨1, 1, [], 0⟩, [("layout", ⟨1, 1⟩)]⟩)]⟩

/-- C10 counterexample: the token key `model` with an empty example list is
omitted from the token map, yet the key `model` still appears in the
persisted document (holding the oracle model identifier), so "a token key
appears iff its examples are non-empty" fails as stated for the two
reserved document keys. -/
theorem saved_doc_reserved_key_counterexample :
    (alookup ("model") reservedDb.token_index).map (fun e => e.global.examples)
      = some []
  ∧ ("model") ∈ (save_tokens_db reservedDb).map Prod.fst
  ∧ ("model") ∉ (tokens_map_of reservedDb).map Prod.fst := by
  refine ⟨rfl, ?_, ?_⟩
  · rw [show (save_tokens_db reservedDb).map Prod.fst
        = ["taxonomy_version", "model"] from rfl]
    simp
  · rw [show (tokens_map_of reservedDb).map Prod.fst = [] from rfl]
    simp

theorem gateway_empty_choices_witness :
    lm_score_features (fun _ => none) [] = .ok score_sentinel
  ∧ lm_tokens_for_features (fun _ => none) ["layout"] [] = .ok [] :=
  gateway_empty_choices_raises.2.2.2.2 [] rfl

example : norm_token ("  Remember/UseState  ") = "remember/usestate" := by decide
example : valid_token (norm_token ("State")) = false := by decide
example :
    (extract_json_blob (("pre ```json\n\x7b\"a\":1\x7d\n``` post").toList)).asString
      = "\x7b\"a\":1\x7d" := by decide
example :
    (extract_json_blob (("noise \x7b\"a\":1\x7d tail").toList)).asString
      = "\x7b\"a\":1\x7d" := by decide
